import Mathlib

/-!
# A verification development for `rover.hpp` (rover_db, version 1.0)

The development is a shallow embedding of `src/rover.hpp`.

Modelling conventions
* A byte is a natural number; a `std::string` and the file content are lists of
  bytes (`List Nat`).  The bytes of a number are reduced modulo 256 when they are
  written; the bytes of a string are copied as they are.
* Fixed-width objects are written in their in-memory representation.  The model
  fixes the little-endian layout of the usual 64-bit hosts: `sizeof` is 1 for
  `uint8_t`, `bool` and `rover_db_type`, 4 for `uint32_t`, 8 for `int64_t` and
  `double`.
* A `double` is carried as its 64-bit pattern: the code only ever copies its
  eight bytes.
* `std::fstream` is a record of the file content, the (joint) file position and
  the `eofbit` / `failbit` / `badbit` flags.  The file is opened with
  `std::ios::app`, so every write lands at the end of the file.  The operating
  system never refuses a read, write, seek or allocation in the model.
* `std::unordered_map` is an association list in iteration order.  The
  iteration order of the real container is unspecified, so statements about
  rows are made through `rover_db_row.find`, never through the order.
* The `while` loop of `get_table` is driven by a fuel counter.  `get_table`
  supplies one unit per byte of the file plus one; `none` stands for a loop
  that is still running when the fuel is used up.
* A member that can leave through an exception returns an `Option`: `none` is
  the `std::bad_variant_access` of `std::get` on a value whose payload is not
  the alternative its tag names.  The getters of a row return an `Except` that
  names the exception thrown.
-/

namespace Rover

/-! ## Object representations -/

/-- The `w` bytes of the unsigned number `n`, least significant byte first. -/
def toLE : Nat → Nat → List Nat
  | 0, _ => []
  | w + 1, n => (n % 256) :: toLE w (n / 256)

/-- The unsigned number a little-endian byte sequence stands for. -/
def ofLE : List Nat → Nat
  | [] => 0
  | b :: bs => b + 256 * ofLE bs

/-- The eight bytes of an `int64_t` (two's complement). -/
def int64_bytes (v : Int) : List Nat :=
  toLE 8 (v % ((2 ^ 64 : Nat) : Int)).toNat

/-- The `int64_t` held by eight bytes. -/
def int64_of_bytes (bs : List Nat) : Int :=
  if ofLE bs < 2 ^ 63 then (ofLE bs : Int) else (ofLE bs : Int) - ((2 ^ 64 : Nat) : Int)

/-- The byte of a `bool`. -/
def bool_byte (b : Bool) : Nat := if b then 1 else 0

/-- The `bool` read back from one byte; the encoder only writes 0 and 1, any
other byte is taken as `true`. -/
def bool_of_bytes (bs : List Nat) : Bool := decide (ofLE bs ≠ 0)

/-- The enumeration `rover_db_type : uint8_t`. -/
inductive rover_db_type where
  | NONE
  | INTEGER
  | FLOAT
  | STRING
  | BOOLEAN
  deriving DecidableEq, Repr

/-- The underlying `uint8_t` of a `rover_db_type`. -/
def rover_db_type.toByte : rover_db_type → Nat
  | .NONE => 0
  | .INTEGER => 1
  | .FLOAT => 2
  | .STRING => 3
  | .BOOLEAN => 4

/-- The alternatives of `std::variant<int64_t, double, std::string, bool>`. -/
inductive variant where
  | int64 (v : Int)
  | double (bits : Nat)
  | string (s : List Nat)
  | bool (b : Bool)
  deriving DecidableEq, Repr

/-- The struct `rover_db_value`. -/
structure rover_db_value where
  type : rover_db_type
  value : variant
  deriving DecidableEq, Repr

/-! ## Rows -/

/-- Assignment `m[key] = v` on the association list that stands for a
`std::unordered_map`: an existing entry is overwritten in place, a new key gets
a new entry. -/
def map_assign (m : List (List Nat × rover_db_value)) (key : List Nat) (v : rover_db_value) :
    List (List Nat × rover_db_value) :=
  if m.any (fun p => decide (p.1 = key)) then
    m.map (fun p => if p.1 = key then (p.1, v) else p)
  else
    (key, v) :: m

/-- The struct `rover_db_row`; `data_` lists the entries in iteration order. -/
structure rover_db_row where
  data_ : List (List Nat × rover_db_value)
  deriving DecidableEq, Repr

namespace rover_db_row

/-- A default-constructed row. -/
def empty : rover_db_row := ⟨[]⟩

/-- The entry of `key` in the map, if there is one (`data_.count(key)` and `data_.at(key)`). -/
def find (row : rover_db_row) (key : List Nat) : Option rover_db_value :=
  (row.data_.find? (fun p => decide (p.1 = key))).map Prod.snd

/-- Assignment `row.get_internal_data()[key] = v`. -/
def assign (row : rover_db_row) (key : List Nat) (v : rover_db_value) : rover_db_row :=
  ⟨map_assign row.data_ key v⟩

/-- Overload `add_value(key, int64_t)`. -/
def add_value_int (row : rover_db_row) (key : List Nat) (value : Int) : rover_db_row :=
  row.assign key ⟨.INTEGER, .int64 value⟩

/-- Overload `add_value(key, double)`. -/
def add_value_float (row : rover_db_row) (key : List Nat) (bits : Nat) : rover_db_row :=
  row.assign key ⟨.FLOAT, .double bits⟩

/-- Overload `add_value(key, const std::string&)`. -/
def add_value_string (row : rover_db_row) (key : List Nat) (value : List Nat) : rover_db_row :=
  row.assign key ⟨.STRING, .string value⟩

/-- Overload `add_value(key, bool)`. -/
def add_value_bool (row : rover_db_row) (key : List Nat) (value : Bool) : rover_db_row :=
  row.assign key ⟨.BOOLEAN, .bool value⟩

end rover_db_row

/-! ## The file stream -/

/-- The state of a `std::fstream` opened with `in | out | binary | app`. -/
structure fstream where
  is_open : Bool
  content : List Nat
  pos : Nat
  eofbit : Bool
  failbit : Bool
  badbit : Bool
  deriving DecidableEq, Repr

namespace fstream

/-- Member `good()`. -/
def good (fs : fstream) : Bool := !fs.eofbit && !fs.failbit && !fs.badbit

/-- Member `fail()`. -/
def fail (fs : fstream) : Bool := fs.failbit || fs.badbit

/-- Member `clear()`. -/
def clear (fs : fstream) : fstream :=
  { fs with eofbit := false, failbit := false, badbit := false }

/-- The bytes from the file position to the end of the file. -/
def avail (fs : fstream) : List Nat :=
  if fs.is_open then fs.content.drop fs.pos else []

/-- Member `write(s, n)` with `bytes` the `n` characters at `s`.  The sentry
refuses a stream that is not `good()`; otherwise the bytes go to the end of the
file. -/
def write (fs : fstream) (bytes : List Nat) : fstream :=
  if fs.good then
    if fs.is_open then
      { fs with content := fs.content ++ bytes, pos := (fs.content ++ bytes).length }
    else
      { fs with badbit := true }
  else
    { fs with failbit := true }

/-- Member `read(s, n)`: the characters extracted and the stream afterwards.
Fewer than `n` characters before the end of the file set `eofbit` and
`failbit`. -/
def read (fs : fstream) (n : Nat) : List Nat × fstream :=
  if fs.good then
    let got := fs.avail.take n
    if got.length = n then
      (got, { fs with pos := fs.pos + n })
    else
      (got, { fs with pos := fs.pos + got.length, eofbit := true, failbit := true })
  else
    ([], { fs with failbit := true })

/-- Member `peek()`; `none` is `EOF`. -/
def peek (fs : fstream) : Option Nat × fstream :=
  if fs.good then
    match fs.avail.head? with
    | some c => (some c, fs)
    | none => (none, { fs with eofbit := true })
  else
    (none, { fs with failbit := true })

/-- Member `seekg(0, std::ios::beg)`. -/
def seekg_beg (fs : fstream) : fstream :=
  let fs1 := { fs with eofbit := false }
  if fs1.fail then fs1
  else if fs1.is_open then { fs1 with pos := 0 }
  else { fs1 with failbit := true }

/-- Member `seekg(off, std::ios::cur)` for a forward offset.  A position past
the end of the file is accepted. -/
def seekg_cur (fs : fstream) (off : Nat) : fstream :=
  let fs1 := { fs with eofbit := false }
  if fs1.fail then fs1
  else if fs1.is_open then { fs1 with pos := fs1.pos + off }
  else { fs1 with failbit := true }

/-- Member `open(filename, mode)`: fails on a stream that is already open,
otherwise clears the flags and starts at the beginning of the file. -/
def open_ (fs : fstream) : fstream :=
  if fs.is_open then { fs with failbit := true }
  else { fs with is_open := true, pos := 0, eofbit := false, failbit := false, badbit := false }

/-- Member `close()`. -/
def close (fs : fstream) : fstream :=
  if fs.is_open then { fs with is_open := false } else { fs with failbit := true }

end fstream

/-! ## Helper functions -/

/-- Template `serialize<T>`; `bytes` is the object representation of the value. -/
def serialize (fs : fstream) (bytes : List Nat) : Bool × fstream :=
  let fs1 := fs.write bytes
  (fs1.good, fs1)

/-- Template `deserialize<T>` with `size = sizeof(T)`; the bytes of the value
are returned when the stream is still `good()`. -/
def deserialize (fs : fstream) (size : Nat) : Option (List Nat) × fstream :=
  let r := fs.read size
  (if r.2.good then some r.1 else none, r.2)

/-- Function `serialize_string`. -/
def serialize_string (fs : fstream) (str : List Nat) : Bool × fstream :=
  let size := str.length % 2 ^ 32
  match serialize fs (toLE 4 size) with
  | (false, fs1) => (false, fs1)
  | (true, fs1) =>
    let fs2 := fs1.write (str.take size)
    (fs2.good, fs2)

/-- Function `deserialize_string`. -/
def deserialize_string (fs : fstream) : Option (List Nat) × fstream :=
  match deserialize fs 4 with
  | (none, fs1) => (none, fs1)
  | (some bs, fs1) =>
    let r := fs1.read (ofLE bs)
    (if r.2.good then some r.1 else none, r.2)

/-- Function `serialize_rover_db_value`.  The result `none` stands for the
`std::bad_variant_access` that `std::get` throws when the variant does not hold
the alternative the tag names. -/
def serialize_rover_db_value (fs : fstream) (value : rover_db_value) : Option Bool × fstream :=
  match serialize fs [value.type.toByte] with
  | (false, fs1) => (some false, fs1)
  | (true, fs1) =>
    match value.type, value.value with
    | .INTEGER, .int64 v => let r := serialize fs1 (int64_bytes v); (some r.1, r.2)
    | .INTEGER, _ => (none, fs1)
    | .FLOAT, .double bits => let r := serialize fs1 (toLE 8 bits); (some r.1, r.2)
    | .FLOAT, _ => (none, fs1)
    | .STRING, .string s => let r := serialize_string fs1 s; (some r.1, r.2)
    | .STRING, _ => (none, fs1)
    | .BOOLEAN, .bool b => let r := serialize fs1 [bool_byte b]; (some r.1, r.2)
    | .BOOLEAN, _ => (none, fs1)
    | .NONE, _ => (some false, fs1)

/-- Function `deserialize_rover_db_value`; `some value` is the result `true`
together with the value stored through the reference. -/
def deserialize_rover_db_value (fs : fstream) : Option rover_db_value × fstream :=
  match deserialize fs 1 with
  | (none, fs1) => (none, fs1)
  | (some tag, fs1) =>
    if ofLE tag = 1 then
      match deserialize fs1 8 with
      | (some bs, fs2) => (some ⟨.INTEGER, .int64 (int64_of_bytes bs)⟩, fs2)
      | (none, fs2) => (none, fs2)
    else if ofLE tag = 2 then
      match deserialize fs1 8 with
      | (some bs, fs2) => (some ⟨.FLOAT, .double (ofLE bs)⟩, fs2)
      | (none, fs2) => (none, fs2)
    else if ofLE tag = 3 then
      match deserialize_string fs1 with
      | (some s, fs2) => (some ⟨.STRING, .string s⟩, fs2)
      | (none, fs2) => (none, fs2)
    else if ofLE tag = 4 then
      match deserialize fs1 1 with
      | (some bs, fs2) => (some ⟨.BOOLEAN, .bool (bool_of_bytes bs)⟩, fs2)
      | (none, fs2) => (none, fs2)
    else
      (none, fs1)

/-! ## The database -/

/-- The class `rover_db`.  The member `filename_` only selects the file whose
bytes `file_.content` holds. -/
structure rover_db where
  file_ : fstream
  deriving DecidableEq, Repr

/-- The column loop of `insert_row`, over the entries in iteration order. -/
def insert_columns (fs : fstream) : List (List Nat × rover_db_value) → Option Bool × fstream
  | [] => (some true, fs)
  | pair :: rest =>
    match serialize_string fs pair.1 with
    | (false, fs1) => (some false, fs1)
    | (true, fs1) =>
      match serialize_rover_db_value fs1 pair.2 with
      | (some true, fs2) => insert_columns fs2 rest
      | (r, fs2) => (r, fs2)

/-- The column loop of the matching branch of `get_table`; `none` is the jump
to `end_loop`. -/
def read_columns : Nat → fstream → rover_db_row → Option rover_db_row × fstream
  | 0, fs, row => (some row, fs)
  | n + 1, fs, row =>
    match deserialize_string fs with
    | (none, fs1) => (none, fs1)
    | (some key, fs1) =>
      match deserialize_rover_db_value fs1 with
      | (none, fs2) => (none, fs2)
      | (some value, fs2) => read_columns n fs2 (row.assign key value)

/-- The column loop of the skipping branch of `get_table`; `false` is the jump
to `end_loop`. -/
def skip_columns : Nat → fstream → Bool × fstream
  | 0, fs => (true, fs)
  | n + 1, fs =>
    match deserialize_string fs with
    | (none, fs1) => (false, fs1)
    | (some _, fs1) =>
      match deserialize fs1 1 with
      | (none, fs2) => (false, fs2)
      | (some raw, fs2) =>
        if ofLE raw = 1 then skip_columns n (fs2.seekg_cur 8)
        else if ofLE raw = 2 then skip_columns n (fs2.seekg_cur 8)
        else if ofLE raw = 3 then
          match deserialize fs2 4 with
          | (none, fs3) => (false, fs3)
          | (some str_size, fs3) => skip_columns n (fs3.seekg_cur (ofLE str_size))
        else if ofLE raw = 4 then skip_columns n (fs2.seekg_cur 1)
        else (false, fs2)

/-- The `while (file_.peek() != EOF)` loop of `get_table`, one unit of fuel per
iteration.  The result is the vector `rows` and the stream at `end_loop`. -/
def scan_loop (table_name : List Nat) :
    Nat → fstream → List rover_db_row → Option (List rover_db_row × fstream)
  | 0, _, _ => none
  | fuel + 1, fs, rows =>
    match fs.peek with
    | (none, fs0) => some (rows, fs0)
    | (some _, fs0) =>
      match deserialize fs0 1 with
      | (none, fs1) => some (rows, fs1)
      | (some record_type, fs1) =>
        if ofLE record_type = 1 then
          match deserialize_string fs1 with
          | (none, fs2) => some (rows, fs2)
          | (some _, fs2) => scan_loop table_name fuel fs2 rows
        else if ofLE record_type = 2 then
          match deserialize_string fs1 with
          | (none, fs2) => some (rows, fs2)
          | (some stored_table_name, fs2) =>
            if stored_table_name = table_name then
              match deserialize fs2 4 with
              | (none, fs3) => some (rows, fs3)
              | (some num_columns, fs3) =>
                match read_columns (ofLE num_columns) fs3 rover_db_row.empty with
                | (none, fs4) => some (rows, fs4)
                | (some row, fs4) => scan_loop table_name fuel fs4 (rows ++ [row])
            else
              match deserialize fs2 4 with
              | (none, fs3) => some (rows, fs3)
              | (some num_columns, fs3) =>
                match skip_columns (ofLE num_columns) fs3 with
                | (false, fs4) => some (rows, fs4)
                | (true, fs4) => scan_loop table_name fuel fs4 rows
        else
          scan_loop table_name fuel fs1 rows

namespace rover_db

/-- The constructor `rover_db(filename)`; `disk` is what the named file holds. -/
def create (disk : List Nat) : rover_db :=
  ⟨{ is_open := false, content := disk, pos := 0,
     eofbit := false, failbit := false, badbit := false }⟩

/-- Member `open()`. -/
def open_ (db : rover_db) : Bool × rover_db :=
  let fs := db.file_.open_
  (fs.is_open, ⟨fs⟩)

/-- Member `close()`. -/
def close (db : rover_db) : rover_db :=
  if db.file_.is_open then ⟨db.file_.close⟩ else db

/-- Member `create_table`. -/
def create_table (db : rover_db) (table_name : List Nat) : Bool × rover_db :=
  if !db.file_.is_open then (false, db)
  else
    match serialize db.file_ [1] with
    | (false, fs1) => (false, ⟨fs1⟩)
    | (true, fs1) =>
      let r := serialize_string fs1 table_name
      (r.1, ⟨r.2⟩)

/-- Member `insert_row`; `none` is an exception leaving the call. -/
def insert_row (db : rover_db) (table_name : List Nat) (row_data : rover_db_row) :
    Option Bool × rover_db :=
  if !db.file_.is_open then (some false, db)
  else
    match serialize db.file_ [2] with
    | (false, fs1) => (some false, ⟨fs1⟩)
    | (true, fs1) =>
      match serialize_string fs1 table_name with
      | (false, fs2) => (some false, ⟨fs2⟩)
      | (true, fs2) =>
        match serialize fs2 (toLE 4 (row_data.data_.length % 2 ^ 32)) with
        | (false, fs3) => (some false, ⟨fs3⟩)
        | (true, fs3) =>
          let r := insert_columns fs3 row_data.data_
          (r.1, ⟨r.2⟩)

/-- Member `get_table`: the vector returned and the database afterwards; `none`
only when the loop outlives its fuel. -/
def get_table (db : rover_db) (table_name : List Nat) : Option (List rover_db_row × rover_db) :=
  if !db.file_.is_open then some ([], db)
  else
    (scan_loop table_name (db.file_.content.length + 1) db.file_.clear.seekg_beg []).map
      (fun r => (r.1, ⟨r.2⟩))

/-- The `for` loop of `bulk_insert`. -/
def bulk_loop (table_name : List Nat) : List rover_db_row → rover_db → Option Bool × rover_db
  | [], db => (some true, db)
  | row :: rest, db =>
    match db.insert_row table_name row with
    | (some true, db1) => bulk_loop table_name rest db1
    | (r, db1) => (r, db1)

/-- Member `bulk_insert`. -/
def bulk_insert (db : rover_db) (table_name : List Nat) (rows_to_insert : List rover_db_row) :
    Option Bool × rover_db :=
  if !db.file_.is_open then (some false, db)
  else bulk_loop table_name rows_to_insert db

end rover_db

/-! ## Vocabulary of the statements -/

/-- A stream that is open with no state flag set. -/
def fstream.Ready (fs : fstream) : Prop := fs.is_open = true ∧ fs.good = true

/-- The stream after `bytes` have been appended to the file. -/
def fstream.append (fs : fstream) (bytes : List Nat) : fstream :=
  { fs with content := fs.content ++ bytes, pos := (fs.content ++ bytes).length }

/-- The open, flag-free stream over the file `before ++ rest` whose position is
the first byte of `rest`. -/
def fstream.cursor (before rest : List Nat) : fstream :=
  { is_open := true, content := before ++ rest, pos := before.length,
    eofbit := false, failbit := false, badbit := false }

/-- The bytes `serialize_string` writes for a string. -/
def string_bytes (str : List Nat) : List Nat :=
  toLE 4 (str.length % 2 ^ 32) ++ str.take (str.length % 2 ^ 32)

/-- The bytes `serialize_rover_db_value` writes for a value whose payload
agrees with its tag (the tag byte alone otherwise). -/
def value_bytes (value : rover_db_value) : List Nat :=
  value.type.toByte ::
    match value.type, value.value with
    | .INTEGER, .int64 v => int64_bytes v
    | .FLOAT, .double bits => toLE 8 bits
    | .STRING, .string s => string_bytes s
    | .BOOLEAN, .bool b => [bool_byte b]
    | _, _ => []

/-- The bytes the column loop of `insert_row` writes. -/
def columns_bytes : List (List Nat × rover_db_value) → List Nat
  | [] => []
  | pair :: rest => string_bytes pair.1 ++ value_bytes pair.2 ++ columns_bytes rest

/-- The two kinds of record in the file. -/
inductive Record where
  | creation (table_name : List Nat)
  | insertion (table_name : List Nat) (columns : List (List Nat × rover_db_value))
  deriving DecidableEq, Repr

/-- The bytes of a record: what `create_table` and `insert_row` append. -/
def Record.bytes : Record → List Nat
  | .creation table_name => 1 :: string_bytes table_name
  | .insertion table_name columns =>
    2 :: (string_bytes table_name ++ (toLE 4 (columns.length % 2 ^ 32) ++ columns_bytes columns))

/-- The bytes of a sequence of records. -/
def records_bytes : List Record → List Nat
  | [] => []
  | r :: rs => r.bytes ++ records_bytes rs

/-- A value whose payload agrees with its tag and fits its encoding: an
`int64_t` in range, a 64-bit pattern, a string shorter than 2^32 bytes. -/
def WfValue (value : rover_db_value) : Prop :=
  match value.type, value.value with
  | .INTEGER, .int64 v => -(2 ^ 63 : Int) ≤ v ∧ v < (2 ^ 63 : Int)
  | .FLOAT, .double bits => bits < 2 ^ 64
  | .STRING, .string s => s.length < 2 ^ 32
  | .BOOLEAN, .bool _ => True
  | _, _ => False

/-- Columns as `insert_row` can meet them in a well-typed row: fewer than 2^32
of them, every name shorter than 2^32 bytes, every value well-formed. -/
def WfColumns (columns : List (List Nat × rover_db_value)) : Prop :=
  columns.length < 2 ^ 32 ∧ ∀ pair ∈ columns, pair.1.length < 2 ^ 32 ∧ WfValue pair.2

/-- A well-typed row: a map (no key twice) with well-formed columns. -/
def WfRow (row : rover_db_row) : Prop :=
  (row.data_.map Prod.fst).Nodup ∧ WfColumns row.data_

/-- A well-formed record. -/
def WfRecord : Record → Prop
  | .creation table_name => table_name.length < 2 ^ 32
  | .insertion table_name columns => table_name.length < 2 ^ 32 ∧ WfColumns columns

/-- The row the scan builds from the columns of a record. -/
def row_of_columns (columns : List (List Nat × rover_db_value)) : rover_db_row :=
  columns.foldl (fun row pair => row.assign pair.1 pair.2) rover_db_row.empty

/-- The rows a sequence of records holds for a table, in file order. -/
def rows_for (table_name : List Nat) : List Record → List rover_db_row
  | [] => []
  | .creation _ :: rs => rows_for table_name rs
  | .insertion stored columns :: rs =>
    if stored = table_name then row_of_columns columns :: rows_for table_name rs
    else rows_for table_name rs

/-- Two rows are the same map: every key has the same entry in both. -/
def SameRow (a b : rover_db_row) : Prop := ∀ key, a.find key = b.find key


/-- The stream a scan leaves behind when it runs into the end of the file. -/
def fstream.at_eof (file : List Nat) : fstream :=
  { fstream.cursor file [] with eofbit := true }

/-- Whether a record is a row record of the table. -/
def Record.is_row_for (table_name : List Nat) : Record → Bool
  | .creation _ => false
  | .insertion stored _ => decide (stored = table_name)

/-- A call of one of the two appending members. -/
inductive Call where
  | create_table (table_name : List Nat)
  | insert_row (table_name : List Nat) (row_data : rover_db_row)
  deriving DecidableEq, Repr

/-- The database after a call; the result of the call is dropped. -/
def Call.run (db : rover_db) : Call → rover_db
  | .create_table table_name => (db.create_table table_name).2
  | .insert_row table_name row_data => (db.insert_row table_name row_data).2

/-- The database after a sequence of calls. -/
def run_calls (db : rover_db) (calls : List Call) : rover_db :=
  calls.foldl Call.run db

/-- The record a call is meant to append. -/
def Call.record : Call → Record
  | .create_table table_name => .creation table_name
  | .insert_row table_name row_data => .insertion table_name row_data.data_

/-- A call with a table name shorter than 2^32 bytes and, for `insert_row`, a
well-typed row. -/
def WfCall : Call → Prop
  | .create_table table_name => table_name.length < 2 ^ 32
  | .insert_row table_name row_data => table_name.length < 2 ^ 32 ∧ WfRow row_data

/-- The rows passed to the `insert_row` calls for a table, in call order. -/
def inserted_rows (table_name : List Nat) : List Call → List rover_db_row
  | [] => []
  | .create_table _ :: cs => inserted_rows table_name cs
  | .insert_row stored row_data :: cs =>
    if stored = table_name then row_data :: inserted_rows table_name cs
    else inserted_rows table_name cs

/-- A freshly opened database over an empty file. -/
def fresh : rover_db := (rover_db.create []).open_.2

instance (value : rover_db_value) : Decidable (WfValue value) := by
  unfold WfValue
  split <;> infer_instance

instance (columns : List (List Nat × rover_db_value)) : Decidable (WfColumns columns) := by
  unfold WfColumns
  infer_instance

instance (row : rover_db_row) : Decidable (WfRow row) := by
  unfold WfRow
  infer_instance

instance (rec : Record) : Decidable (WfRecord rec) := by
  cases rec <;> unfold WfRecord <;> infer_instance

instance (call : Call) : Decidable (WfCall call) := by
  cases call <;> unfold WfCall <;> infer_instance

/-- The row `{a: 5, b: 2.5, c: "x", d: true}`, built with `add_value`; 2.5 is
the pattern `0x4004000000000000`. -/
def example_row : rover_db_row :=
  (((rover_db_row.empty.add_value_int [97] 5).add_value_float [98] 0x4004000000000000)
    |>.add_value_string [99] [120]).add_value_bool [100] true

/-- Records of other tables, used around `example_row` in the examples. -/
def example_records : List Record :=
  [.creation [117], .insertion [117] [([107], ⟨.INTEGER, .int64 (-7)⟩)], .creation [116],
   .insertion [118, 119] [([115], ⟨.STRING, .string [104, 105]⟩), ([98], ⟨.BOOLEAN, .bool false⟩)]]

/-- An interleaving of calls on the tables `t` and `u`. -/
def example_calls : List Call :=
  [.create_table [116],
   .insert_row [116] (rover_db_row.empty.add_value_int [105] 1),
   .insert_row [117] (rover_db_row.empty.add_value_string [110] [65, 110, 110]),
   .insert_row [116] example_row,
   .create_table [117],
   .insert_row [116] (rover_db_row.empty.add_value_int [105] 3)]

/-- The byte sequence `p` is `full` cut short: `full` is `p` followed by at least
one more byte. -/
def Cut (p full : List Nat) : Prop := ∃ more, more ≠ [] ∧ full = p ++ more

/-- Byte sequences that do not start with a complete value: nothing at all, a
first byte that is none of the tags 1 to 4, fewer than 8 bytes after the tag 1
or 2, nothing after the tag 4, fewer than 4 length bytes after the tag 3, or
fewer content bytes than the length after the tag 3 declares. -/
def RejectedValueBytes (b : List Nat) : Prop :=
  b = [] ∨
  (∃ tag rest, b = tag :: rest ∧ tag ≠ 1 ∧ tag ≠ 2 ∧ tag ≠ 3 ∧ tag ≠ 4) ∨
  (∃ tag p, b = tag :: p ∧ (tag = 1 ∨ tag = 2) ∧ p.length < 8) ∨
  b = [4] ∨
  (∃ p, b = 3 :: p ∧ p.length < 4) ∨
  (∃ len p, b = 3 :: (len ++ p) ∧ len.length = 4 ∧ p.length < ofLE len)

/-- A stream that is open and flag-free with its position at or past the end of
the file. -/
def fstream.Exhausted (fs : fstream) : Prop :=
  fs.is_open = true ∧ fs.good = true ∧ fs.content.length ≤ fs.pos

/-- The outcome of a skipping column loop that lets the scan end: the jump to
`end_loop`, or a stream with nothing left to read. -/
def SkipEnds (r : Bool × fstream) : Prop := r.1 = false ∨ r.2.Exhausted

/-- What a getter of `rover_db_row` throws: the `std::runtime_error` of its last
line, or the `std::bad_variant_access` of `std::get`. -/
inductive getter_error where
  | runtime_error
  | bad_variant_access
  deriving DecidableEq, Repr

namespace rover_db_row

/-- Member `get_int`. -/
def get_int (row : rover_db_row) (key : List Nat) : Except getter_error Int :=
  match row.find key with
  | some entry =>
    if entry.type = .INTEGER then
      match entry.value with
      | .int64 v => .ok v
      | _ => .error .bad_variant_access
    else .error .runtime_error
  | none => .error .runtime_error

/-- Member `get_float`; the `double` is its 64-bit pattern. -/
def get_float (row : rover_db_row) (key : List Nat) : Except getter_error Nat :=
  match row.find key with
  | some entry =>
    if entry.type = .FLOAT then
      match entry.value with
      | .double bits => .ok bits
      | _ => .error .bad_variant_access
    else .error .runtime_error
  | none => .error .runtime_error

/-- Member `get_string`. -/
def get_string (row : rover_db_row) (key : List Nat) : Except getter_error (List Nat) :=
  match row.find key with
  | some entry =>
    if entry.type = .STRING then
      match entry.value with
      | .string s => .ok s
      | _ => .error .bad_variant_access
    else .error .runtime_error
  | none => .error .runtime_error

/-- Member `get_bool`. -/
def get_bool (row : rover_db_row) (key : List Nat) : Except getter_error Bool :=
  match row.find key with
  | some entry =>
    if entry.type = .BOOLEAN then
      match entry.value with
      | .bool b => .ok b
      | _ => .error .bad_variant_access
    else .error .runtime_error
  | none => .error .runtime_error

end rover_db_row

/-- The key is absent from the row, or its entry carries another tag than `ty`. -/
def AbsentOrOtherTag (row : rover_db_row) (key : List Nat) (ty : rover_db_type) : Prop :=
  row.find key = none ∨ ∃ entry, row.find key = some entry ∧ entry.type ≠ ty

/-- The length-prefixed string of the format description: the 4-byte length,
then the bytes. -/
def spec_string (s : List Nat) : List Nat := toLE 4 s.length ++ s

/-- The value encoding of the format description: the tag byte 1, 2, 3 or 4,
then 8 bytes for INTEGER or FLOAT, the 4-byte length and the content for
STRING, one byte 0 or 1 for BOOLEAN. -/
def spec_value (value : rover_db_value) : List Nat :=
  match value with
  | ⟨.INTEGER, .int64 v⟩ => 1 :: int64_bytes v
  | ⟨.FLOAT, .double bits⟩ => 2 :: toLE 8 bits
  | ⟨.STRING, .string s⟩ => 3 :: spec_string s
  | ⟨.BOOLEAN, .bool b⟩ => 4 :: [if b then 1 else 0]
  | _ => []

/-- The columns of a row record of the format description: name and value of
each column, in order. -/
def spec_columns : List (List Nat × rover_db_value) → List Nat
  | [] => []
  | pair :: rest => spec_string pair.1 ++ spec_value pair.2 ++ spec_columns rest

/-- The row record of the format description: the byte 0x02, the table name, the
4-byte column count, then name and value of each column in order. -/
def spec_row_record (table_name : List Nat) (columns : List (List Nat × rover_db_value)) :
    List Nat :=
  [2] ++ spec_string table_name ++ toLE 4 columns.length ++ spec_columns columns

/-- Sequential application of `insert_row` as the description of `bulk_insert`
words it: every row in order, nothing more once a call has not succeeded. -/
def sequential_insert (db : rover_db) (table_name : List Nat) (rows : List rover_db_row) :
    Option Bool × rover_db :=
  rows.foldl (fun acc row => if acc.1 = some true then acc.2.insert_row table_name row else acc)
    (some true, db)

/-- A stream that holds the file of another followed by more bytes, open like
the other. -/
def fstream.Extends (fs fs1 : fstream) : Prop :=
  fs1.is_open = fs.is_open ∧ ∃ bytes, fs1.content = fs.content ++ bytes

/-- The stream `fs1` reads the same file as `fs`, is open like it, and its
position is not before that of `fs`. -/
def fstream.Advances (fs fs1 : fstream) : Prop :=
  fs1.content = fs.content ∧ fs1.is_open = fs.is_open ∧ fs.pos ≤ fs1.pos

/-- The payload of the value is the alternative its tag names, and the tag is
one of INTEGER, FLOAT, STRING, BOOLEAN. -/
def TagAgrees (value : rover_db_value) : Prop :=
  match value.type, value.value with
  | .INTEGER, .int64 _ => True
  | .FLOAT, .double _ => True
  | .STRING, .string _ => True
  | .BOOLEAN, .bool _ => True
  | _, _ => False

/-- Every value held in the row has a payload that agrees with its tag. -/
def RowAgrees (row : rover_db_row) : Prop := ∀ pair ∈ row.data_, TagAgrees pair.2

/-- The rows obtained from the empty row by `add_value` calls. -/
inductive Built : rover_db_row → Prop where
  | empty : Built rover_db_row.empty
  | add_int (row : rover_db_row) (key : List Nat) (value : Int) :
      Built row → Built (row.add_value_int key value)
  | add_float (row : rover_db_row) (key : List Nat) (bits : Nat) :
      Built row → Built (row.add_value_float key bits)
  | add_string (row : rover_db_row) (key : List Nat) (value : List Nat) :
      Built row → Built (row.add_value_string key value)
  | add_bool (row : rover_db_row) (key : List Nat) (value : Bool) :
      Built row → Built (row.add_value_bool key value)

/-- Every value held in the rows has a payload that agrees with its tag. -/
def RowsAgree (rows : List rover_db_row) : Prop := ∀ row ∈ rows, RowAgrees row

/-- The reference scanner of the skipping claim: the record loop in which every
row record has all its columns decoded with `deserialize_rover_db_value`, and
the decoded row is dropped when the stored table name is not the one asked
for. -/
def reference_scan_loop (table_name : List Nat) :
    Nat → fstream → List rover_db_row → Option (List rover_db_row × fstream)
  | 0, _, _ => none
  | fuel + 1, fs, rows =>
    match fs.peek with
    | (none, fs0) => some (rows, fs0)
    | (some _, fs0) =>
      match deserialize fs0 1 with
      | (none, fs1) => some (rows, fs1)
      | (some record_type, fs1) =>
        if ofLE record_type = 1 then
          match deserialize_string fs1 with
          | (none, fs2) => some (rows, fs2)
          | (some _, fs2) => reference_scan_loop table_name fuel fs2 rows
        else if ofLE record_type = 2 then
          match deserialize_string fs1 with
          | (none, fs2) => some (rows, fs2)
          | (some stored_table_name, fs2) =>
            match deserialize fs2 4 with
            | (none, fs3) => some (rows, fs3)
            | (some num_columns, fs3) =>
              match read_columns (ofLE num_columns) fs3 rover_db_row.empty with
              | (none, fs4) => some (rows, fs4)
              | (some row, fs4) =>
                if stored_table_name = table_name then
                  reference_scan_loop table_name fuel fs4 (rows ++ [row])
                else
                  reference_scan_loop table_name fuel fs4 rows
        else
          reference_scan_loop table_name fuel fs1 rows

/-- The reference scanner on a database: `get_table` with the reference loop. -/
def rover_db.reference_get_table (db : rover_db) (table_name : List Nat) :
    Option (List rover_db_row × rover_db) :=
  if !db.file_.is_open then some ([], db)
  else
    (reference_scan_loop table_name (db.file_.content.length + 1) db.file_.clear.seekg_beg
      []).map (fun r => (r.1, ⟨r.2⟩))

/-- The part of the skipping column loop that passes over one value: the tag
byte is read and the payload is passed over by `seekg`; `false` is the jump to
`end_loop`. -/
def skip_value (fs : fstream) : Bool × fstream :=
  match deserialize fs 1 with
  | (none, fs2) => (false, fs2)
  | (some raw, fs2) =>
    if ofLE raw = 1 then (true, fs2.seekg_cur 8)
    else if ofLE raw = 2 then (true, fs2.seekg_cur 8)
    else if ofLE raw = 3 then
      match deserialize fs2 4 with
      | (none, fs3) => (false, fs3)
      | (some str_size, fs3) => (true, fs3.seekg_cur (ofLE str_size))
    else if ofLE raw = 4 then (true, fs2.seekg_cur 1)
    else (false, fs2)

/-- The bytes `insert_row` leaves in the file when the column `key` is the first
one tagged NONE: the kind byte, the table name, the column count, the columns
`before` it, its name and its tag byte 0. -/
def torn_row_bytes (table_name : List Nat) (count : Nat)
    (before : List (List Nat × rover_db_value)) (key : List Nat) : List Nat :=
  2 :: (string_bytes table_name ++ (toLE 4 (count % 2 ^ 32)
    ++ (columns_bytes before ++ (string_bytes key ++ [0]))))

/-- A row with one column, whose value is tagged NONE as a default-constructed
`rover_db_value` is. -/
def none_row : rover_db_row := ⟨[([120], ⟨.NONE, .int64 0⟩)]⟩

/-- Well-typed columns ahead of a NONE-tagged one, for the examples. -/
def example_before : List (List Nat × rover_db_value) := [([97], ⟨.INTEGER, .int64 5⟩)]

/-- Columns behind a NONE-tagged one, for the examples. -/
def example_after : List (List Nat × rover_db_value) := [([98], ⟨.BOOLEAN, .bool true⟩)]

/-! ## Byte representations -/

theorem toLE_length (w n : Nat) : (toLE w n).length = w := by
  induction w generalizing n with
  | zero => rfl
  | succ w ih => simp [toLE, ih]

theorem ofLE_toLE (w n : Nat) : ofLE (toLE w n) = n % 256 ^ w := by
  induction w generalizing n with
  | zero => simp [toLE, ofLE, Nat.mod_one]
  | succ w ih =>
    simp only [toLE, ofLE, ih]
    rw [pow_succ, Nat.mul_comm (256 ^ w) 256, Nat.mod_mul]

theorem ofLE_toLE_of_lt (w n : Nat) (h : n < 256 ^ w) : ofLE (toLE w n) = n := by
  rw [ofLE_toLE, Nat.mod_eq_of_lt h]

theorem ofLE_single (b : Nat) : ofLE [b] = b := by simp [ofLE]

theorem int64_roundtrip (v : Int) (h1 : -(2 ^ 63 : Int) ≤ v) (h2 : v < (2 ^ 63 : Int)) :
    int64_of_bytes (int64_bytes v) = v := by
  unfold int64_of_bytes int64_bytes
  rw [ofLE_toLE]
  have hm : (v % ((2 ^ 64 : Nat) : Int)).toNat < 256 ^ 8 := by
    have := Int.emod_lt_of_pos v (show (0 : Int) < ((2 ^ 64 : Nat) : Int) by norm_num)
    have h0 := Int.emod_nonneg v (show ((2 ^ 64 : Nat) : Int) ≠ 0 by norm_num)
    omega
  rw [Nat.mod_eq_of_lt hm]
  have h0 := Int.emod_nonneg v (show ((2 ^ 64 : Nat) : Int) ≠ 0 by norm_num)
  rw [Int.toNat_of_nonneg h0]
  by_cases hv : 0 ≤ v
  · have : v % ((2 ^ 64 : Nat) : Int) = v := Int.emod_eq_of_lt hv (by push_cast; omega)
    rw [this]
    have h3 : v.toNat < 2 ^ 63 := by omega
    rw [if_pos h3]
  · have : v % ((2 ^ 64 : Nat) : Int) = v + ((2 ^ 64 : Nat) : Int) := by
      rw [← Int.add_emod_self]
      exact Int.emod_eq_of_lt (by push_cast; omega) (by push_cast; omega)
    rw [this]
    have h3 : ¬ (v + ((2 ^ 64 : Nat) : Int)).toNat < 2 ^ 63 := by push_cast; omega
    rw [if_neg h3]
    omega

theorem bool_roundtrip (b : Bool) : bool_of_bytes [bool_byte b] = b := by
  cases b <;> simp [bool_of_bytes, bool_byte, ofLE]

/-! ### Writing to a ready stream -/

theorem write_ready (fs : fstream) (h : fs.Ready) (bytes : List Nat) :
    fs.write bytes = fs.append bytes := by
  obtain ⟨h1, h2⟩ := h
  simp [fstream.write, fstream.append, h1, h2]

theorem append_ready (fs : fstream) (h : fs.Ready) (bytes : List Nat) :
    (fs.append bytes).Ready := by
  obtain ⟨h1, h2⟩ := h
  exact ⟨h1, h2⟩

theorem append_append (fs : fstream) (a b : List Nat) :
    (fs.append a).append b = fs.append (a ++ b) := by
  simp [fstream.append, List.append_assoc]

theorem append_nil (fs : fstream) (h : fs.pos = fs.content.length) : fs.append [] = fs := by
  cases fs
  simp_all [fstream.append]

theorem serialize_ready (fs : fstream) (h : fs.Ready) (bytes : List Nat) :
    serialize fs bytes = (true, fs.append bytes) := by
  have h2 := (append_ready fs h bytes).2
  simp [serialize, write_ready fs h, h2]

theorem serialize_string_ready (fs : fstream) (h : fs.Ready) (str : List Nat) :
    serialize_string fs str = (true, fs.append (string_bytes str)) := by
  have h1 := append_ready fs h (toLE 4 (str.length % 2 ^ 32))
  have h2 := (append_ready fs h (string_bytes str)).2
  simp only [serialize_string, serialize_ready fs h, write_ready _ h1, append_append]
  rw [show toLE 4 (str.length % 2 ^ 32) ++ str.take (str.length % 2 ^ 32) = string_bytes str
    from rfl, h2]

theorem serialize_value_ready (fs : fstream) (h : fs.Ready) (v : rover_db_value)
    (hv : WfValue v) :
    serialize_rover_db_value fs v = (some true, fs.append (value_bytes v)) := by
  have h1 := append_ready fs h [v.type.toByte]
  obtain ⟨ty, val⟩ := v
  cases ty <;> cases val <;> simp [WfValue] at hv <;>
    simp [serialize_rover_db_value, serialize_ready fs h, serialize_ready _ h1,
      serialize_string_ready _ h1, append_append, value_bytes]

/-! ### Reading at a cursor -/

theorem cursor_good (a b : List Nat) : (fstream.cursor a b).good = true := rfl

theorem cursor_avail (a b : List Nat) : (fstream.cursor a b).avail = b := by
  simp [fstream.avail, fstream.cursor]

theorem read_cursor (a bs rest : List Nat) :
    (fstream.cursor a (bs ++ rest)).read bs.length = (bs, fstream.cursor (a ++ bs) rest) := by
  simp [fstream.read, cursor_good, cursor_avail]
  simp [fstream.cursor]

theorem deserialize_cursor (a bs rest : List Nat) (n : Nat) (h : bs.length = n) :
    deserialize (fstream.cursor a (bs ++ rest)) n = (some bs, fstream.cursor (a ++ bs) rest) := by
  subst h
  simp [deserialize, read_cursor, cursor_good]

theorem string_bytes_of_lt (s : List Nat) (h : s.length < 2 ^ 32) :
    string_bytes s = toLE 4 s.length ++ s := by
  unfold string_bytes
  rw [Nat.mod_eq_of_lt h, List.take_length]

theorem deserialize_string_cursor (a s rest : List Nat) (h : s.length < 2 ^ 32) :
    deserialize_string (fstream.cursor a (string_bytes s ++ rest))
      = (some s, fstream.cursor (a ++ string_bytes s) rest) := by
  rw [string_bytes_of_lt s h]
  have h4 : ofLE (toLE 4 s.length) = s.length := ofLE_toLE_of_lt 4 _ (by norm_num at h ⊢; omega)
  simp only [deserialize_string, List.append_assoc,
    deserialize_cursor a (toLE 4 s.length) (s ++ rest) 4 (toLE_length 4 _), h4, read_cursor,
    cursor_good]
  simp

theorem deserialize_cursor_cons (a : List Nat) (b : Nat) (rest : List Nat) :
    deserialize (fstream.cursor a (b :: rest)) 1 = (some [b], fstream.cursor (a ++ [b]) rest) :=
  deserialize_cursor a [b] rest 1 rfl

theorem int64_bytes_length (v : Int) : (int64_bytes v).length = 8 := toLE_length 8 _

theorem deserialize_value_cursor (a : List Nat) (v : rover_db_value) (rest : List Nat)
    (hv : WfValue v) :
    deserialize_rover_db_value (fstream.cursor a (value_bytes v ++ rest))
      = (some v, fstream.cursor (a ++ value_bytes v) rest) := by
  obtain ⟨ty, val⟩ := v
  cases ty <;> cases val <;> simp only [WfValue] at hv
  · -- INTEGER
    rename_i x
    simp [value_bytes, rover_db_type.toByte, deserialize_rover_db_value,
      deserialize_cursor_cons, ofLE_single,
      deserialize_cursor _ (int64_bytes x) rest 8 (int64_bytes_length x),
      int64_roundtrip x hv.1 hv.2]
  · -- FLOAT
    rename_i bits
    have hb : ofLE (toLE 8 bits) = bits := ofLE_toLE_of_lt 8 bits (by norm_num at hv ⊢; omega)
    simp [value_bytes, rover_db_type.toByte, deserialize_rover_db_value,
      deserialize_cursor_cons, ofLE_single,
      deserialize_cursor _ (toLE 8 bits) rest 8 (toLE_length 8 bits), hb]
  · -- STRING
    rename_i s
    simp [value_bytes, rover_db_type.toByte, deserialize_rover_db_value,
      deserialize_cursor_cons, ofLE_single, deserialize_string_cursor _ s rest hv]
  · -- BOOLEAN
    rename_i b
    simp [value_bytes, rover_db_type.toByte, deserialize_rover_db_value,
      deserialize_cursor_cons, ofLE_single, bool_roundtrip,
      deserialize_cursor _ [bool_byte b] rest 1 rfl]

/-! ### Unfolding the loops

The recursive loops are unfolded one iteration at a time through the equations
below, each of which holds by computation. -/

theorem read_columns_zero (fs : fstream) (row : rover_db_row) :
    read_columns 0 fs row = (some row, fs) := rfl

theorem read_columns_succ (n : Nat) (fs : fstream) (row : rover_db_row) :
    read_columns (n + 1) fs row =
      match deserialize_string fs with
      | (none, fs1) => (none, fs1)
      | (some key, fs1) =>
        match deserialize_rover_db_value fs1 with
        | (none, fs2) => (none, fs2)
        | (some value, fs2) => read_columns n fs2 (row.assign key value) := rfl

theorem skip_columns_zero (fs : fstream) : skip_columns 0 fs = (true, fs) := rfl

theorem skip_columns_succ (n : Nat) (fs : fstream) :
    skip_columns (n + 1) fs =
      match deserialize_string fs with
      | (none, fs1) => (false, fs1)
      | (some _, fs1) =>
        match deserialize fs1 1 with
        | (none, fs2) => (false, fs2)
        | (some raw, fs2) =>
          if ofLE raw = 1 then skip_columns n (fs2.seekg_cur 8)
          else if ofLE raw = 2 then skip_columns n (fs2.seekg_cur 8)
          else if ofLE raw = 3 then
            match deserialize fs2 4 with
            | (none, fs3) => (false, fs3)
            | (some str_size, fs3) => skip_columns n (fs3.seekg_cur (ofLE str_size))
          else if ofLE raw = 4 then skip_columns n (fs2.seekg_cur 1)
          else (false, fs2) := rfl

theorem insert_columns_nil (fs : fstream) : insert_columns fs [] = (some true, fs) := rfl

theorem insert_columns_cons (fs : fstream) (pair : List Nat × rover_db_value)
    (rest : List (List Nat × rover_db_value)) :
    insert_columns fs (pair :: rest) =
      match serialize_string fs pair.1 with
      | (false, fs1) => (some false, fs1)
      | (true, fs1) =>
        match serialize_rover_db_value fs1 pair.2 with
        | (some true, fs2) => insert_columns fs2 rest
        | (r, fs2) => (r, fs2) := rfl

theorem bulk_loop_nil (t : List Nat) (db : rover_db) :
    rover_db.bulk_loop t [] db = (some true, db) := rfl

theorem bulk_loop_cons (t : List Nat) (row : rover_db_row) (rest : List rover_db_row)
    (db : rover_db) :
    rover_db.bulk_loop t (row :: rest) db =
      match db.insert_row t row with
      | (some true, db1) => rover_db.bulk_loop t rest db1
      | (r, db1) => (r, db1) := rfl

/-! ### The column loops over well-formed columns -/

theorem seekg_cur_cursor (a bs rest : List Nat) :
    (fstream.cursor a (bs ++ rest)).seekg_cur bs.length = fstream.cursor (a ++ bs) rest := by
  simp [fstream.seekg_cur, fstream.cursor, fstream.fail]

theorem read_columns_cursor (cols : List (List Nat × rover_db_value)) (a rest : List Nat)
    (row : rover_db_row) (h : ∀ pair ∈ cols, pair.1.length < 2 ^ 32 ∧ WfValue pair.2) :
    read_columns cols.length (fstream.cursor a (columns_bytes cols ++ rest)) row
      = (some (cols.foldl (fun r pair => r.assign pair.1 pair.2) row),
          fstream.cursor (a ++ columns_bytes cols) rest) := by
  induction cols generalizing a row with
  | nil =>
    simp only [List.length_nil, read_columns_zero, columns_bytes, List.foldl_nil, List.nil_append,
      List.append_nil]
  | cons c cs ih =>
    obtain ⟨hk, hv⟩ := h c (List.mem_cons_self _ _)
    have hcs : ∀ pair ∈ cs, pair.1.length < 2 ^ 32 ∧ WfValue pair.2 :=
      fun p hp => h p (List.mem_cons_of_mem _ hp)
    simp only [List.length_cons, read_columns_succ, columns_bytes, List.append_assoc,
      deserialize_string_cursor a c.1 _ hk, deserialize_value_cursor _ c.2 _ hv, ih _ _ hcs,
      List.foldl_cons]

/-- Skipping one well-formed value: the tag byte is read and the payload is
passed over by `seekg`. -/
theorem skip_columns_step (n : Nat) (a k : List Nat) (v : rover_db_value) (rest : List Nat)
    (hk : k.length < 2 ^ 32) (hv : WfValue v) :
    skip_columns (n + 1) (fstream.cursor a (string_bytes k ++ (value_bytes v ++ rest)))
      = skip_columns n (fstream.cursor (a ++ (string_bytes k ++ value_bytes v)) rest) := by
  rw [skip_columns_succ, deserialize_string_cursor a k _ hk]
  obtain ⟨ty, val⟩ := v
  cases ty <;> cases val <;> simp only [WfValue] at hv
  · rename_i x
    have := seekg_cur_cursor (a ++ string_bytes k ++ [1]) (int64_bytes x) rest
    rw [int64_bytes_length] at this
    simpa [value_bytes, rover_db_type.toByte, deserialize_cursor_cons, ofLE_single]
      using congrArg (skip_columns n) this
  · rename_i bits
    have := seekg_cur_cursor (a ++ string_bytes k ++ [2]) (toLE 8 bits) rest
    rw [toLE_length] at this
    simpa [value_bytes, rover_db_type.toByte, deserialize_cursor_cons, ofLE_single]
      using congrArg (skip_columns n) this
  · rename_i s
    have h4 : ofLE (toLE 4 s.length) = s.length :=
      ofLE_toLE_of_lt 4 _ (by norm_num at hv ⊢; omega)
    have := seekg_cur_cursor (a ++ string_bytes k ++ [3] ++ toLE 4 s.length) s rest
    simpa [value_bytes, rover_db_type.toByte, deserialize_cursor_cons, ofLE_single,
      string_bytes_of_lt s hv, deserialize_cursor _ (toLE 4 s.length) (s ++ rest) 4
        (toLE_length 4 _), h4] using congrArg (skip_columns n) this
  · rename_i b
    have := seekg_cur_cursor (a ++ string_bytes k ++ [4]) [bool_byte b] rest
    simp only [List.length_singleton] at this
    simpa [value_bytes, rover_db_type.toByte, deserialize_cursor_cons, ofLE_single]
      using congrArg (skip_columns n) this

theorem skip_columns_cursor (cols : List (List Nat × rover_db_value)) (a rest : List Nat)
    (h : ∀ pair ∈ cols, pair.1.length < 2 ^ 32 ∧ WfValue pair.2) :
    skip_columns cols.length (fstream.cursor a (columns_bytes cols ++ rest))
      = (true, fstream.cursor (a ++ columns_bytes cols) rest) := by
  induction cols generalizing a with
  | nil => simp only [List.length_nil, skip_columns_zero, columns_bytes, List.nil_append,
      List.append_nil]
  | cons c cs ih =>
    obtain ⟨hk, hv⟩ := h c (List.mem_cons_self _ _)
    have hcs : ∀ pair ∈ cs, pair.1.length < 2 ^ 32 ∧ WfValue pair.2 :=
      fun p hp => h p (List.mem_cons_of_mem _ hp)
    simp only [List.length_cons, columns_bytes, List.append_assoc]
    rw [skip_columns_step _ _ _ _ _ hk hv, ih _ hcs]
    simp only [List.append_assoc]

/-! ### The record loop over well-formed records -/

theorem peek_cursor_cons (a : List Nat) (b : Nat) (rest : List Nat) :
    (fstream.cursor a (b :: rest)).peek = (some b, fstream.cursor a (b :: rest)) := by
  simp [fstream.peek, cursor_good, cursor_avail]

theorem peek_cursor_nil (a : List Nat) :
    (fstream.cursor a []).peek = (none, { fstream.cursor a [] with eofbit := true }) := by
  simp [fstream.peek, cursor_good, cursor_avail]

theorem scan_loop_succ (t : List Nat) (fuel : Nat) (fs : fstream) (rows : List rover_db_row) :
    scan_loop t (fuel + 1) fs rows =
      match fs.peek with
      | (none, fs0) => some (rows, fs0)
      | (some _, fs0) =>
        match deserialize fs0 1 with
        | (none, fs1) => some (rows, fs1)
        | (some record_type, fs1) =>
          if ofLE record_type = 1 then
            match deserialize_string fs1 with
            | (none, fs2) => some (rows, fs2)
            | (some _, fs2) => scan_loop t fuel fs2 rows
          else if ofLE record_type = 2 then
            match deserialize_string fs1 with
            | (none, fs2) => some (rows, fs2)
            | (some stored_table_name, fs2) =>
              if stored_table_name = t then
                match deserialize fs2 4 with
                | (none, fs3) => some (rows, fs3)
                | (some num_columns, fs3) =>
                  match read_columns (ofLE num_columns) fs3 rover_db_row.empty with
                  | (none, fs4) => some (rows, fs4)
                  | (some row, fs4) => scan_loop t fuel fs4 (rows ++ [row])
              else
                match deserialize fs2 4 with
                | (none, fs3) => some (rows, fs3)
                | (some num_columns, fs3) =>
                  match skip_columns (ofLE num_columns) fs3 with
                  | (false, fs4) => some (rows, fs4)
                  | (true, fs4) => scan_loop t fuel fs4 rows
          else
            scan_loop t fuel fs1 rows := rfl

theorem scan_loop_end (t : List Nat) (fuel : Nat) (a : List Nat) (rows : List rover_db_row) :
    scan_loop t (fuel + 1) (fstream.cursor a []) rows
      = some (rows, { fstream.cursor a [] with eofbit := true }) := by
  rw [scan_loop_succ, peek_cursor_nil]

theorem scan_loop_record (t : List Nat) (fuel : Nat) (a : List Nat) (rec : Record)
    (rest : List Nat) (rows : List rover_db_row) (h : WfRecord rec) :
    scan_loop t (fuel + 1) (fstream.cursor a (rec.bytes ++ rest)) rows
      = scan_loop t fuel (fstream.cursor (a ++ rec.bytes) rest) (rows ++ rows_for t [rec]) := by
  rw [scan_loop_succ]
  cases rec with
  | creation name =>
    simp only [WfRecord] at h
    simp [Record.bytes, peek_cursor_cons, deserialize_cursor_cons, ofLE_single,
      deserialize_string_cursor _ name rest h, rows_for]
  | insertion name cols =>
    obtain ⟨hn, hlen, hcols⟩ := h
    have h4 : ofLE (toLE 4 cols.length) = cols.length :=
      ofLE_toLE_of_lt 4 _ (by norm_num at hlen ⊢; omega)
    have hd := fun b => deserialize_cursor b (toLE 4 cols.length)
      (columns_bytes cols ++ rest) 4 (toLE_length 4 _)
    simp only [Record.bytes]
    rw [Nat.mod_eq_of_lt hlen]
    by_cases hname : name = t
    · subst hname
      simp [peek_cursor_cons, deserialize_cursor_cons, ofLE_single,
        deserialize_string_cursor _ name _ hn, hd, h4,
        read_columns_cursor cols _ rest _ hcols, rows_for, row_of_columns]
    · simp [peek_cursor_cons, deserialize_cursor_cons, ofLE_single,
        deserialize_string_cursor _ name _ hn, hname, hd, h4,
        skip_columns_cursor cols _ rest hcols, rows_for]

theorem rows_for_cons (t : List Nat) (rec : Record) (recs : List Record) :
    rows_for t (rec :: recs) = rows_for t [rec] ++ rows_for t recs := by
  cases rec with
  | creation name => simp [rows_for]
  | insertion name cols => by_cases h : name = t <;> simp [rows_for, h]

theorem rows_for_append (t : List Nat) (xs ys : List Record) :
    rows_for t (xs ++ ys) = rows_for t xs ++ rows_for t ys := by
  induction xs with
  | nil => simp [rows_for]
  | cons x xs ih => rw [List.cons_append, rows_for_cons, ih, rows_for_cons t x xs,
      List.append_assoc]

theorem records_bytes_append (xs ys : List Record) :
    records_bytes (xs ++ ys) = records_bytes xs ++ records_bytes ys := by
  induction xs with
  | nil => simp [records_bytes]
  | cons x xs ih => simp [records_bytes, ih]

theorem scan_loop_records (t : List Nat) (recs : List Record) (fuel : Nat) (a rest : List Nat)
    (rows : List rover_db_row) (h : ∀ rec ∈ recs, WfRecord rec) :
    scan_loop t (fuel + recs.length) (fstream.cursor a (records_bytes recs ++ rest)) rows
      = scan_loop t fuel (fstream.cursor (a ++ records_bytes recs) rest)
          (rows ++ rows_for t recs) := by
  induction recs generalizing a rows with
  | nil => simp [records_bytes, rows_for]
  | cons rec recs ih =>
    have h1 := h rec (List.mem_cons_self _ _)
    have h2 : ∀ r ∈ recs, WfRecord r := fun r hr => h r (List.mem_cons_of_mem _ hr)
    rw [List.length_cons, ← Nat.add_assoc, records_bytes, List.append_assoc,
      scan_loop_record t _ a rec _ rows h1, ih _ _ h2, rows_for_cons t rec recs]
    simp only [List.append_assoc]

theorem record_bytes_pos (rec : Record) : 0 < rec.bytes.length := by
  cases rec <;> simp [Record.bytes]

theorem records_bytes_length (recs : List Record) :
    recs.length ≤ (records_bytes recs).length := by
  induction recs with
  | nil => simp
  | cons r rs ih =>
    have := record_bytes_pos r
    simp only [records_bytes, List.length_cons, List.length_append]
    omega

theorem clear_seekg_beg (fs : fstream) (h : fs.is_open = true) :
    fs.clear.seekg_beg = fstream.cursor [] fs.content := by
  simp [fstream.clear, fstream.seekg_beg, fstream.fail, fstream.cursor, h]

/-- The scan of a file made of well-formed records returns the rows the records
hold for the table, in file order. -/
theorem get_table_records (db : rover_db) (t : List Nat) (recs : List Record)
    (hopen : db.file_.is_open = true) (hc : db.file_.content = records_bytes recs)
    (h : ∀ rec ∈ recs, WfRecord rec) :
    db.get_table t = some (rows_for t recs, ⟨fstream.at_eof (records_bytes recs)⟩) := by
  have hlen := records_bytes_length recs
  obtain ⟨k, hk⟩ : ∃ k, (records_bytes recs).length + 1 = (k + 1) + recs.length :=
    ⟨(records_bytes recs).length - recs.length, by omega⟩
  have := scan_loop_records t recs (k + 1) [] [] [] h
  simp only [List.append_nil, List.nil_append] at this
  simp only [rover_db.get_table, hopen, clear_seekg_beg, hc, hk, this, scan_loop_end]
  rfl

/-! ### Rows as maps -/

theorem find_map_assign (m : List (List Nat × rover_db_value)) (k key : List Nat)
    (v : rover_db_value) :
    ((m.map (fun p => if p.1 = k then (p.1, v) else p)).find?
        (fun p => decide (p.1 = key))).map Prod.snd
      = if k = key then (if m.any (fun p => decide (p.1 = k)) then some v else none)
        else (m.find? (fun p => decide (p.1 = key))).map Prod.snd := by
  induction m with
  | nil => simp
  | cons p m ih =>
    simp only [List.map_cons, List.find?_cons, List.any_cons]
    by_cases hp : p.1 = k
    · by_cases hk : k = key
      · simp [hp, hk]
      · have hpk : ¬ p.1 = key := fun h => hk (hp.symm.trans h)
        simp only [hp, if_true, hk, if_false, decide_False]
        rw [ih, if_neg hk]
    · by_cases hk : k = key
      · subst hk
        simp only [hp, if_false, decide_False, Bool.false_or]
        rw [ih, if_pos rfl]
        simp
      · simp only [hp, if_false]
        by_cases hp2 : p.1 = key
        · simp [hp2, hk]
        · simp only [hp2, decide_False, hk, if_false]
          rw [ih, if_neg hk]

theorem find_assign (row : rover_db_row) (k key : List Nat) (v : rover_db_value) :
    (row.assign k v).find key = if k = key then some v else row.find key := by
  unfold rover_db_row.assign rover_db_row.find map_assign
  by_cases hany : row.data_.any (fun p => decide (p.1 = k)) = true
  · simp only [hany, if_true, find_map_assign]
  · simp only [hany]
    by_cases hk : k = key
    · simp [hk, List.find?_cons]
    · simp [hk, List.find?_cons]

theorem find_none_of_not_mem (cols : List (List Nat × rover_db_value)) (key : List Nat)
    (h : key ∉ cols.map Prod.fst) : (rover_db_row.mk cols).find key = none := by
  unfold rover_db_row.find
  simp only [Option.map_eq_none', List.find?_eq_none]
  intro p hp
  simp only [decide_eq_true_eq]
  intro hpk
  exact h (List.mem_map.mpr ⟨p, hp, hpk⟩)

theorem find_foldl_assign (cols : List (List Nat × rover_db_value)) (row : rover_db_row)
    (key : List Nat) (h : (cols.map Prod.fst).Nodup) :
    (cols.foldl (fun r pair => r.assign pair.1 pair.2) row).find key
      = ((rover_db_row.mk cols).find key).or (row.find key) := by
  induction cols generalizing row with
  | nil => simp [rover_db_row.find]
  | cons c cs ih =>
    simp only [List.map_cons, List.nodup_cons] at h
    rw [List.foldl_cons, ih _ h.2, find_assign]
    by_cases hk : c.1 = key
    · subst hk
      rw [find_none_of_not_mem cs _ h.1]
      simp [rover_db_row.find, List.find?_cons]
    · simp [hk, rover_db_row.find, List.find?_cons]

theorem row_of_columns_same (row : rover_db_row) (h : (row.data_.map Prod.fst).Nodup) :
    SameRow (row_of_columns row.data_) row := by
  intro key
  rw [row_of_columns, find_foldl_assign _ _ _ h]
  simp [rover_db_row.find, rover_db_row.empty]

theorem map_assign_keys_of_mem (m : List (List Nat × rover_db_value)) (key : List Nat)
    (v : rover_db_value) :
    (m.map (fun p => if p.1 = key then (p.1, v) else p)).map Prod.fst = m.map Prod.fst := by
  induction m with
  | nil => rfl
  | cons p m ih =>
    simp only [List.map_cons, ih, List.cons.injEq, and_true]
    by_cases hp : p.1 = key <;> simp [hp]

/-- The empty row is well-typed. -/
theorem wf_row_empty : WfRow rover_db_row.empty := by
  simp [WfRow, WfColumns, rover_db_row.empty]

/-- Assignment keeps a row well-typed, as long as the key and the value fit
their encoding and the row stays below 2^32 columns: rows built with
`add_value` are well-typed. -/
theorem wf_row_assign (row : rover_db_row) (key : List Nat) (v : rover_db_value)
    (h : WfRow row) (hk : key.length < 2 ^ 32) (hv : WfValue v)
    (hlen : row.data_.length + 1 < 2 ^ 32) : WfRow (row.assign key v) := by
  obtain ⟨hnd, hl, hcols⟩ := h
  unfold rover_db_row.assign map_assign
  by_cases hany : row.data_.any (fun p => decide (p.1 = key)) = true
  · rw [if_pos hany]
    refine ⟨?_, ?_, ?_⟩
    · rw [map_assign_keys_of_mem]
      exact hnd
    · rw [List.length_map]
      exact hl
    · intro pair hpair
      obtain ⟨p, hp, rfl⟩ := List.mem_map.mp hpair
      by_cases hpk : p.1 = key
      · rw [if_pos hpk]
        exact ⟨(hcols p hp).1, hv⟩
      · rw [if_neg hpk]
        exact hcols p hp
  · rw [if_neg hany]
    refine ⟨?_, ?_, ?_⟩
    · simp only [List.map_cons, List.nodup_cons]
      refine ⟨?_, hnd⟩
      intro hmem
      obtain ⟨p, hp, hpk⟩ := List.mem_map.mp hmem
      exact hany (List.any_eq_true.mpr ⟨p, hp, by simpa using hpk⟩)
    · simpa using hlen
    · intro pair hpair
      rcases List.mem_cons.mp hpair with rfl | hp
      · exact ⟨hk, hv⟩
      · exact hcols pair hp

/-! ### Appending to a ready database -/

theorem append_pos (fs : fstream) (bytes : List Nat) :
    (fs.append bytes).pos = (fs.append bytes).content.length := rfl

theorem insert_columns_ready (cols : List (List Nat × rover_db_value)) (fs : fstream)
    (h : fs.Ready) (hpos : fs.pos = fs.content.length) (hv : ∀ pair ∈ cols, WfValue pair.2) :
    insert_columns fs cols = (some true, fs.append (columns_bytes cols)) := by
  induction cols generalizing fs with
  | nil => rw [insert_columns_nil, columns_bytes, append_nil fs hpos]
  | cons c cs ih =>
    have h1 := append_ready fs h (string_bytes c.1)
    have h2 := append_ready _ h1 (value_bytes c.2)
    rw [insert_columns_cons, serialize_string_ready fs h]
    dsimp only
    rw [serialize_value_ready _ h1 _ (hv c (List.mem_cons_self _ _))]
    dsimp only
    rw [ih _ h2 (append_pos _ _) (fun p hp => hv p (List.mem_cons_of_mem _ hp)), append_append,
      append_append, columns_bytes, List.append_assoc]

theorem create_table_ready (db : rover_db) (t : List Nat) (h : db.file_.Ready) :
    db.create_table t = (true, ⟨db.file_.append (Record.creation t).bytes⟩) := by
  have h1 := append_ready _ h [1]
  simp [rover_db.create_table, h.1, serialize_ready _ h, serialize_string_ready _ h1,
    append_append, Record.bytes]

theorem insert_row_ready (db : rover_db) (t : List Nat) (row : rover_db_row)
    (h : db.file_.Ready) (hv : ∀ pair ∈ row.data_, WfValue pair.2) :
    db.insert_row t row = (some true, ⟨db.file_.append (Record.insertion t row.data_).bytes⟩) := by
  have h1 := append_ready _ h [2]
  have h2 := append_ready _ h1 (string_bytes t)
  have h3 := append_ready _ h2 (toLE 4 (row.data_.length % 2 ^ 32))
  unfold rover_db.insert_row
  rw [h.1, serialize_ready _ h]
  dsimp only [Bool.not_true]
  rw [if_neg (by decide), serialize_string_ready _ h1]
  dsimp only
  rw [serialize_ready _ h2]
  dsimp only
  rw [insert_columns_ready _ _ h3 (append_pos _ _) hv, append_append, append_append,
    append_append]
  rfl

theorem wf_row_values (row : rover_db_row) (h : WfRow row) :
    ∀ pair ∈ row.data_, WfValue pair.2 := fun p hp => (h.2.2 p hp).2

theorem wf_call_record (c : Call) (h : WfCall c) : WfRecord c.record := by
  cases c with
  | create_table t => exact h
  | insert_row t row => exact ⟨h.1, h.2.2⟩

theorem run_calls_ready (calls : List Call) (db : rover_db) (h : db.file_.Ready)
    (hwf : ∀ c ∈ calls, WfCall c) (hpos : db.file_.pos = db.file_.content.length) :
    run_calls db calls = ⟨db.file_.append (records_bytes (calls.map Call.record))⟩ := by
  induction calls generalizing db with
  | nil =>
    cases db
    simp only [run_calls, List.foldl_nil, List.map_nil, records_bytes, append_nil _ hpos]
  | cons c cs ih =>
    have hc := hwf c (List.mem_cons_self _ _)
    have hcs : ∀ c ∈ cs, WfCall c := fun x hx => hwf x (List.mem_cons_of_mem _ hx)
    have hstep : Call.run db c = ⟨db.file_.append c.record.bytes⟩ := by
      cases c with
      | create_table t => simp [Call.run, create_table_ready db t h, Call.record]
      | insert_row t row =>
        simp [Call.run, insert_row_ready db t row h (wf_row_values row hc.2), Call.record]
    have := ih (Call.run db c) (by rw [hstep]; exact append_ready _ h _) hcs
      (by rw [hstep]; rfl)
    simp only [run_calls, List.foldl_cons] at this ⊢
    rw [this, hstep]
    simp only [append_append, List.map_cons, records_bytes]

theorem fresh_ready : fresh.file_.Ready := ⟨rfl, rfl⟩

theorem run_calls_fresh (calls : List Call) (hwf : ∀ c ∈ calls, WfCall c) :
    run_calls fresh calls = ⟨fresh.file_.append (records_bytes (calls.map Call.record))⟩ :=
  run_calls_ready calls fresh fresh_ready hwf rfl

theorem rows_for_inserted (t : List Nat) (calls : List Call) (hwf : ∀ c ∈ calls, WfCall c) :
    List.Forall₂ SameRow (rows_for t (calls.map Call.record)) (inserted_rows t calls) := by
  induction calls with
  | nil => simp [rows_for, inserted_rows]
  | cons c cs ih =>
    have hc := hwf c (List.mem_cons_self _ _)
    have hcs : ∀ c ∈ cs, WfCall c := fun x hx => hwf x (List.mem_cons_of_mem _ hx)
    cases c with
    | create_table n => simpa [rows_for, inserted_rows, Call.record] using ih hcs
    | insert_row n row =>
      by_cases hn : n = t
      · simp only [List.map_cons, Call.record, rows_for, inserted_rows, hn, if_true]
        exact List.Forall₂.cons (row_of_columns_same row hc.2.1) (ih hcs)
      · simpa [rows_for, inserted_rows, Call.record, hn] using ih hcs

theorem get_table_after_calls (t : List Nat) (calls : List Call)
    (hwf : ∀ c ∈ calls, WfCall c) :
    (run_calls fresh calls).get_table t
      = some (rows_for t (calls.map Call.record),
          ⟨fstream.at_eof (records_bytes (calls.map Call.record))⟩) := by
  rw [run_calls_fresh calls hwf]
  apply get_table_records
  · rfl
  · simp [fstream.append, fresh, rover_db.open_, rover_db.create, fstream.open_]
  · intro rec hrec
    obtain ⟨c, hc, rfl⟩ := List.mem_map.mp hrec
    exact wf_call_record c (hwf c hc)

theorem rows_for_none (t : List Nat) (recs : List Record)
    (h : ∀ rec ∈ recs, rec.is_row_for t = false) : rows_for t recs = [] := by
  induction recs with
  | nil => rfl
  | cons r rs ih =>
    have hr := h r (List.mem_cons_self _ _)
    have hrs := ih (fun x hx => h x (List.mem_cons_of_mem _ hx))
    cases r with
    | creation n => simpa [rows_for] using hrs
    | insertion n cols =>
      have : ¬ n = t := by simpa [Record.is_row_for] using hr
      simpa [rows_for, this] using hrs

/-- An unknown kind byte is passed over: the loop goes on with the next byte. -/
theorem scan_loop_unknown_kind (t : List Nat) (fuel : Nat) (a : List Nat) (k : Nat)
    (rest : List Nat) (rows : List rover_db_row) (h1 : k ≠ 1) (h2 : k ≠ 2) :
    scan_loop t (fuel + 1) (fstream.cursor a (k :: rest)) rows
      = scan_loop t fuel (fstream.cursor (a ++ [k]) rest) rows := by
  rw [scan_loop_succ]
  simp [peek_cursor_cons, deserialize_cursor_cons, ofLE_single, h1, h2]

theorem create_not_open (disk : List Nat) : (rover_db.create disk).file_.is_open = false := rfl

theorem close_not_open (db : rover_db) : db.close.file_.is_open = false := by
  unfold rover_db.close
  by_cases h : db.file_.is_open = true
  · simp [h, fstream.close]
  · rw [if_neg h]
    simpa using h

theorem close_content (db : rover_db) : db.close.file_.content = db.file_.content := by
  unfold rover_db.close
  by_cases h : db.file_.is_open = true
  · simp [h, fstream.close]
  · simp [h]

/-! ### Reading a file that was cut short -/

theorem cut_length {p full : List Nat} (h : Cut p full) : p.length < full.length := by
  obtain ⟨more, hne, rfl⟩ := h
  have : 0 < more.length := List.length_pos.mpr hne
  simp only [List.length_append]
  omega

theorem cut_append {p x y : List Nat} (h : Cut p (x ++ y)) :
    Cut p x ∨ ∃ q, p = x ++ q ∧ Cut q y := by
  obtain ⟨more, hne, heq⟩ := h
  rcases List.append_eq_append_iff.mp heq with ⟨a, hp, hy⟩ | ⟨c, hx, hmore⟩
  · exact Or.inr ⟨a, hp, more, hne, hy⟩
  · by_cases hc : c = []
    · subst hc
      simp only [List.append_nil] at hx
      simp only [List.nil_append] at hmore
      exact Or.inr ⟨[], by simp [hx], more, hne, by simp [hmore]⟩
    · exact Or.inl ⟨c, hc, hx⟩

theorem cut_cons {p : List Nat} {b : Nat} {y : List Nat} (h : Cut p (b :: y)) :
    p = [] ∨ ∃ q, p = b :: q ∧ Cut q y := by
  obtain ⟨more, hne, heq⟩ := h
  cases p with
  | nil => exact Or.inl rfl
  | cons c q =>
    simp only [List.cons_append, List.cons.injEq] at heq
    exact Or.inr ⟨q, by rw [heq.1], more, hne, heq.2⟩

theorem cut_nil {p : List Nat} (h : Cut p []) : False := by
  have := cut_length h
  simp at this

theorem read_short (a p : List Nat) (n : Nat) (h : p.length < n) :
    ((fstream.cursor a p).read n).2.good = false := by
  have h1 : ¬ (List.take n p).length = n := by
    rw [List.length_take]
    omega
  unfold fstream.read
  rw [cursor_good, if_pos rfl, cursor_avail]
  dsimp only
  rw [if_neg h1]
  rfl

theorem deserialize_short (a p : List Nat) (n : Nat) (h : p.length < n) :
    (deserialize (fstream.cursor a p) n).1 = none := by
  unfold deserialize
  dsimp only
  rw [read_short a p n h]
  rfl

theorem deserialize_string_short (a p : List Nat) (h : p.length < 4) :
    (deserialize_string (fstream.cursor a p)).1 = none := by
  have := deserialize_short a p 4 h
  unfold deserialize_string
  rcases hd : deserialize (fstream.cursor a p) 4 with ⟨_ | bs, fs1⟩
  · rfl
  · rw [hd] at this
    simp at this

theorem deserialize_string_short_content (a len p : List Nat) (h4 : len.length = 4)
    (h : p.length < ofLE len) :
    (deserialize_string (fstream.cursor a (len ++ p))).1 = none := by
  unfold deserialize_string
  rw [deserialize_cursor a len p 4 h4]
  dsimp only
  rw [read_short _ p _ h]
  rfl

theorem deserialize_string_cut (a p s : List Nat) (hs : s.length < 2 ^ 32)
    (h : Cut p (string_bytes s)) : (deserialize_string (fstream.cursor a p)).1 = none := by
  rw [string_bytes_of_lt s hs] at h
  rcases cut_append h with h1 | ⟨q, rfl, h2⟩
  · exact deserialize_string_short a p (by simpa [toLE_length] using cut_length h1)
  · apply deserialize_string_short_content a _ q (toLE_length 4 _)
    rw [ofLE_toLE_of_lt 4 _ (by norm_num at hs ⊢; omega)]
    exact cut_length h2

theorem deserialize_value_rejected (a b : List Nat) (h : RejectedValueBytes b) :
    (deserialize_rover_db_value (fstream.cursor a b)).1 = none := by
  unfold deserialize_rover_db_value
  rcases h with rfl | ⟨tag, rest, rfl, h1, h2, h3, h4⟩ | ⟨tag, p, rfl, htag, hp⟩ | rfl |
    ⟨p, rfl, hp⟩ | ⟨len, p, rfl, hlen, hp⟩
  · have := deserialize_short a [] 1 (by simp)
    rcases hd : deserialize (fstream.cursor a []) 1 with ⟨_ | bs, fs1⟩
    · rfl
    · rw [hd] at this
      simp at this
  · simp [deserialize_cursor_cons, ofLE_single, h1, h2, h3, h4]
  · have := deserialize_short (a ++ [tag]) p 8 hp
    rcases hd : deserialize (fstream.cursor (a ++ [tag]) p) 8 with ⟨_ | bs, fs1⟩
    · rcases htag with rfl | rfl <;> simp [deserialize_cursor_cons, ofLE_single, hd]
    · rw [hd] at this
      simp at this
  · have := deserialize_short (a ++ [4]) [] 1 (by simp)
    rcases hd : deserialize (fstream.cursor (a ++ [4]) []) 1 with ⟨_ | bs, fs1⟩
    · simp [deserialize_cursor_cons, ofLE_single, hd]
    · rw [hd] at this
      simp at this
  · have := deserialize_string_short (a ++ [3]) p hp
    rcases hd : deserialize_string (fstream.cursor (a ++ [3]) p) with ⟨_ | bs, fs1⟩
    · simp [deserialize_cursor_cons, ofLE_single, hd]
    · rw [hd] at this
      simp at this
  · have := deserialize_string_short_content (a ++ [3]) len p hlen hp
    rcases hd : deserialize_string (fstream.cursor (a ++ [3]) (len ++ p)) with ⟨_ | bs, fs1⟩
    · simp [deserialize_cursor_cons, ofLE_single, hd]
    · rw [hd] at this
      simp at this

theorem value_cut_rejected (v : rover_db_value) (b : List Nat) (hv : WfValue v)
    (h : Cut b (value_bytes v)) : RejectedValueBytes b := by
  obtain ⟨ty, val⟩ := v
  cases ty <;> cases val <;> simp only [WfValue] at hv
  · rename_i x
    rcases cut_cons h with rfl | ⟨q, rfl, hq⟩
    · exact Or.inl rfl
    · have := cut_length hq
      rw [int64_bytes_length] at this
      exact Or.inr (Or.inr (Or.inl ⟨1, q, rfl, Or.inl rfl, this⟩))
  · rename_i bits
    rcases cut_cons h with rfl | ⟨q, rfl, hq⟩
    · exact Or.inl rfl
    · have := cut_length hq
      rw [toLE_length] at this
      exact Or.inr (Or.inr (Or.inl ⟨2, q, rfl, Or.inr rfl, this⟩))
  · rename_i s
    rcases cut_cons h with rfl | ⟨q, rfl, hq⟩
    · exact Or.inl rfl
    · simp only [string_bytes_of_lt s hv] at hq
      rcases cut_append hq with h1 | ⟨q2, rfl, h2⟩
      · have := cut_length h1
        rw [toLE_length] at this
        exact Or.inr (Or.inr (Or.inr (Or.inr (Or.inl ⟨q, rfl, this⟩))))
      · refine Or.inr (Or.inr (Or.inr (Or.inr (Or.inr ⟨toLE 4 s.length, q2, rfl,
          toLE_length 4 _, ?_⟩))))
        rw [ofLE_toLE_of_lt 4 _ (by norm_num at hv ⊢; omega)]
        exact cut_length h2
  · rename_i bb
    rcases cut_cons h with rfl | ⟨q, rfl, hq⟩
    · exact Or.inl rfl
    · have := cut_length hq
      simp only [List.length_singleton, Nat.lt_one_iff, List.length_eq_zero] at this
      subst this
      exact Or.inr (Or.inr (Or.inr (Or.inl rfl)))

theorem deserialize_value_cut (a p : List Nat) (v : rover_db_value) (hv : WfValue v)
    (h : Cut p (value_bytes v)) :
    (deserialize_rover_db_value (fstream.cursor a p)).1 = none :=
  deserialize_value_rejected a p (value_cut_rejected v p hv h)

theorem fst_none {α β : Type} (x : Option α × β) (h : x.1 = none) : x = (none, x.2) := by
  obtain ⟨a, b⟩ := x
  simp only at h
  rw [h]

theorem fst_false {β : Type} (x : Bool × β) (h : x.1 = false) : x = (false, x.2) := by
  obtain ⟨a, b⟩ := x
  simp only at h
  rw [h]

/-! ### A stream with nothing left to read -/

theorem exhausted_avail (fs : fstream) (h : fs.Exhausted) : fs.avail = [] := by
  obtain ⟨h1, _, h3⟩ := h
  simp [fstream.avail, h1, List.drop_eq_nil_of_le h3]

theorem exhausted_peek (fs : fstream) (h : fs.Exhausted) : fs.peek.1 = none := by
  unfold fstream.peek
  rw [h.2.1, if_pos rfl, exhausted_avail fs h]
  rfl

theorem exhausted_deserialize (fs : fstream) (h : fs.Exhausted) (n : Nat) (hn : 0 < n) :
    (deserialize fs n).1 = none := by
  have h1 : ¬ (List.take n ([] : List Nat)).length = n := by
    simp only [List.take_nil, List.length_nil]
    omega
  unfold deserialize fstream.read
  rw [h.2.1, if_pos rfl, exhausted_avail fs h]
  dsimp only
  rw [if_neg h1]
  rfl

theorem exhausted_deserialize_string (fs : fstream) (h : fs.Exhausted) :
    (deserialize_string fs).1 = none := by
  unfold deserialize_string
  rw [fst_none _ (exhausted_deserialize fs h 4 (by decide))]

theorem exhausted_skip_columns (fs : fstream) (h : fs.Exhausted) (n : Nat) :
    SkipEnds (skip_columns n fs) := by
  cases n with
  | zero => exact Or.inr h
  | succ n =>
    rw [skip_columns_succ, fst_none _ (exhausted_deserialize_string fs h)]
    exact Or.inl rfl

theorem exhausted_scan_loop (t : List Nat) (fuel : Nat) (fs : fstream) (h : fs.Exhausted)
    (rows : List rover_db_row) : ∃ fs1, scan_loop t (fuel + 1) fs rows = some (rows, fs1) := by
  rw [scan_loop_succ, fst_none _ (exhausted_peek fs h)]
  exact ⟨_, rfl⟩

theorem seekg_cur_exhausted (a q : List Nat) (n : Nat) (h : q.length ≤ n) :
    ((fstream.cursor a q).seekg_cur n).Exhausted := by
  refine ⟨rfl, rfl, ?_⟩
  simp only [fstream.seekg_cur, fstream.cursor, fstream.fail, Bool.or_false, Bool.false_eq_true,
    if_false, if_true, List.length_append]
  omega

/-! ### The loops on a record that was cut short -/

theorem read_columns_cut (cols : List (List Nat × rover_db_value)) (a p : List Nat)
    (row : rover_db_row) (hwf : ∀ pair ∈ cols, pair.1.length < 2 ^ 32 ∧ WfValue pair.2)
    (hcut : Cut p (columns_bytes cols)) :
    (read_columns cols.length (fstream.cursor a p) row).1 = none := by
  induction cols generalizing a p row with
  | nil => exact (cut_nil hcut).elim
  | cons c cs ih =>
    obtain ⟨hk, hv⟩ := hwf c (List.mem_cons_self _ _)
    have hcs : ∀ pair ∈ cs, pair.1.length < 2 ^ 32 ∧ WfValue pair.2 :=
      fun x hx => hwf x (List.mem_cons_of_mem _ hx)
    rw [List.length_cons, read_columns_succ]
    rw [columns_bytes, List.append_assoc] at hcut
    rcases cut_append hcut with h1 | ⟨q, rfl, h2⟩
    · rw [fst_none _ (deserialize_string_cut a p c.1 hk h1)]
    · rw [deserialize_string_cursor a c.1 q hk]
      dsimp only
      rcases cut_append h2 with h3 | ⟨q2, rfl, h4⟩
      · rw [fst_none _ (deserialize_value_cut _ q c.2 hv h3)]
      · rw [deserialize_value_cursor _ c.2 q2 hv]
        exact ih _ _ _ hcs h4

theorem skip_value_cut (n : Nat) (a q : List Nat) (v : rover_db_value) (hv : WfValue v)
    (hcut : Cut q (value_bytes v)) :
    SkipEnds
      (match deserialize (fstream.cursor a q) 1 with
        | (none, fs2) => (false, fs2)
        | (some raw, fs2) =>
          if ofLE raw = 1 then skip_columns n (fs2.seekg_cur 8)
          else if ofLE raw = 2 then skip_columns n (fs2.seekg_cur 8)
          else if ofLE raw = 3 then
            match deserialize fs2 4 with
            | (none, fs3) => (false, fs3)
            | (some str_size, fs3) => skip_columns n (fs3.seekg_cur (ofLE str_size))
          else if ofLE raw = 4 then skip_columns n (fs2.seekg_cur 1)
          else (false, fs2)) := by
  rcases cut_cons hcut with rfl | ⟨q1, rfl, hq⟩
  · rw [fst_none _ (deserialize_short a [] 1 (by decide))]
    exact Or.inl rfl
  · rw [deserialize_cursor_cons]
    dsimp only
    rw [ofLE_single]
    obtain ⟨ty, val⟩ := v
    cases ty <;> cases val <;> simp only [WfValue] at hv
    · rename_i x
      have hl := cut_length hq
      rw [int64_bytes_length] at hl
      simp only [rover_db_type.toByte, if_true]
      exact exhausted_skip_columns _ (seekg_cur_exhausted _ q1 8 (by omega)) n
    · rename_i bits
      have hl := cut_length hq
      rw [toLE_length] at hl
      simp only [rover_db_type.toByte, OfNat.ofNat_ne_one, if_false, if_true]
      exact exhausted_skip_columns _ (seekg_cur_exhausted _ q1 8 (by omega)) n
    · rename_i s
      simp only [rover_db_type.toByte, Nat.succ_ne_self, if_false, if_true,
        show ¬ (3 : Nat) = 1 by decide, show ¬ (3 : Nat) = 2 by decide]
      change Cut q1 (string_bytes s) at hq
      rw [string_bytes_of_lt s hv] at hq
      rcases cut_append hq with h1 | ⟨q2, rfl, h2⟩
      · have hl := cut_length h1
        rw [toLE_length] at hl
        rw [fst_none _ (deserialize_short _ q1 4 hl)]
        exact Or.inl rfl
      · rw [deserialize_cursor _ (toLE 4 s.length) q2 4 (toLE_length 4 _)]
        dsimp only
        rw [ofLE_toLE_of_lt 4 _ (by norm_num at hv ⊢; omega)]
        exact exhausted_skip_columns _
          (seekg_cur_exhausted _ q2 s.length (Nat.le_of_lt (cut_length h2))) n
    · rename_i b
      have hl := cut_length hq
      simp only [List.length_singleton] at hl
      simp only [rover_db_type.toByte, if_false, if_true,
        show ¬ (4 : Nat) = 1 by decide, show ¬ (4 : Nat) = 2 by decide,
        show ¬ (4 : Nat) = 3 by decide]
      exact exhausted_skip_columns _ (seekg_cur_exhausted _ q1 1 (by omega)) n

theorem skip_columns_cut (cols : List (List Nat × rover_db_value)) (a p : List Nat)
    (hwf : ∀ pair ∈ cols, pair.1.length < 2 ^ 32 ∧ WfValue pair.2)
    (hcut : Cut p (columns_bytes cols)) :
    SkipEnds (skip_columns cols.length (fstream.cursor a p)) := by
  induction cols generalizing a p with
  | nil => exact (cut_nil hcut).elim
  | cons c cs ih =>
    obtain ⟨hk, hv⟩ := hwf c (List.mem_cons_self _ _)
    have hcs : ∀ pair ∈ cs, pair.1.length < 2 ^ 32 ∧ WfValue pair.2 :=
      fun x hx => hwf x (List.mem_cons_of_mem _ hx)
    rw [columns_bytes, List.append_assoc] at hcut
    rcases cut_append hcut with h1 | ⟨q, rfl, h2⟩
    · rw [List.length_cons, skip_columns_succ, fst_none _ (deserialize_string_cut a p c.1 hk h1)]
      exact Or.inl rfl
    · rcases cut_append h2 with h3 | ⟨q2, rfl, h4⟩
      · rw [List.length_cons, skip_columns_succ, deserialize_string_cursor a c.1 q hk]
        exact skip_value_cut cs.length _ q c.2 hv h3
      · rw [List.length_cons, skip_columns_step _ a c.1 c.2 q2 hk hv]
        exact ih _ _ hcs h4

/-- The scan meets a record that was cut short as the last thing in the file:
it ends there and returns the rows collected so far. -/
theorem scan_loop_cut (t : List Nat) (fuel : Nat) (a p : List Nat) (rec : Record)
    (rows : List rover_db_row) (hwf : WfRecord rec) (hcut : Cut p rec.bytes) :
    ∃ fs1, scan_loop t (fuel + 2) (fstream.cursor a p) rows = some (rows, fs1) := by
  cases rec with
  | creation name =>
    rcases cut_cons hcut with rfl | ⟨q, rfl, hq⟩
    · exact ⟨_, scan_loop_end t (fuel + 1) a rows⟩
    · rw [scan_loop_succ, peek_cursor_cons]
      dsimp only
      rw [deserialize_cursor_cons]
      dsimp only
      rw [ofLE_single, if_pos rfl, fst_none _ (deserialize_string_cut _ q name hwf hq)]
      exact ⟨_, rfl⟩
  | insertion name cols =>
    obtain ⟨hn, hlen, hcols⟩ := hwf
    rcases cut_cons hcut with rfl | ⟨q, rfl, hq⟩
    · exact ⟨_, scan_loop_end t (fuel + 1) a rows⟩
    · rw [scan_loop_succ, peek_cursor_cons]
      dsimp only
      rw [deserialize_cursor_cons]
      dsimp only
      rw [ofLE_single, if_neg (by decide), if_pos rfl]
      rcases cut_append hq with h1 | ⟨q2, rfl, h2⟩
      · rw [fst_none _ (deserialize_string_cut _ q name hn h1)]
        exact ⟨_, rfl⟩
      · rw [deserialize_string_cursor _ name q2 hn]
        dsimp only
        rw [Nat.mod_eq_of_lt hlen] at h2
        have h4 : ofLE (toLE 4 cols.length) = cols.length :=
          ofLE_toLE_of_lt 4 _ (by norm_num at hlen ⊢; omega)
        rcases cut_append h2 with h3 | ⟨q3, rfl, h5⟩
        · have hl := cut_length h3
          rw [toLE_length] at hl
          rw [fst_none _ (deserialize_short _ q2 4 hl)]
          by_cases hname : name = t
          · rw [if_pos hname]
            exact ⟨_, rfl⟩
          · rw [if_neg hname]
            exact ⟨_, rfl⟩
        · rw [deserialize_cursor _ (toLE 4 cols.length) q3 4 (toLE_length 4 _)]
          dsimp only
          rw [h4]
          by_cases hname : name = t
          · rw [if_pos hname, fst_none _ (read_columns_cut cols _ q3 _ hcols h5)]
            exact ⟨_, rfl⟩
          · rw [if_neg hname]
            rcases skip_columns_cut cols (a ++ [2] ++ string_bytes name ++ toLE 4 cols.length)
              q3 hcols h5 with hs | hs
            · rw [fst_false _ hs]
              exact ⟨_, rfl⟩
            · rcases hres : skip_columns cols.length
                (fstream.cursor (a ++ [2] ++ string_bytes name ++ toLE 4 cols.length) q3)
                with ⟨b, fs4⟩
              rw [hres] at hs
              cases b with
              | false => exact ⟨_, rfl⟩
              | true => exact exhausted_scan_loop t fuel fs4 hs rows

/-! ### The typed getters -/

theorem get_int_ok_iff (row : rover_db_row) (key : List Nat) (v : Int) :
    row.get_int key = .ok v ↔ row.find key = some ⟨.INTEGER, .int64 v⟩ := by
  unfold rover_db_row.get_int
  rcases hf : row.find key with _ | ⟨ty, val⟩
  · simp
  · cases ty <;> cases val <;> simp

theorem get_float_ok_iff (row : rover_db_row) (key : List Nat) (v : Nat) :
    row.get_float key = .ok v ↔ row.find key = some ⟨.FLOAT, .double v⟩ := by
  unfold rover_db_row.get_float
  rcases hf : row.find key with _ | ⟨ty, val⟩
  · simp
  · cases ty <;> cases val <;> simp

theorem get_string_ok_iff (row : rover_db_row) (key : List Nat) (v : List Nat) :
    row.get_string key = .ok v ↔ row.find key = some ⟨.STRING, .string v⟩ := by
  unfold rover_db_row.get_string
  rcases hf : row.find key with _ | ⟨ty, val⟩
  · simp
  · cases ty <;> cases val <;> simp

theorem get_bool_ok_iff (row : rover_db_row) (key : List Nat) (v : Bool) :
    row.get_bool key = .ok v ↔ row.find key = some ⟨.BOOLEAN, .bool v⟩ := by
  unfold rover_db_row.get_bool
  rcases hf : row.find key with _ | ⟨ty, val⟩
  · simp
  · cases ty <;> cases val <;> simp

theorem get_int_other (row : rover_db_row) (key : List Nat)
    (h : AbsentOrOtherTag row key .INTEGER) : row.get_int key = .error .runtime_error := by
  unfold rover_db_row.get_int
  rcases h with h | ⟨e, h, hne⟩
  · rw [h]
  · rw [h]
    simp [hne]

theorem get_float_other (row : rover_db_row) (key : List Nat)
    (h : AbsentOrOtherTag row key .FLOAT) : row.get_float key = .error .runtime_error := by
  unfold rover_db_row.get_float
  rcases h with h | ⟨e, h, hne⟩
  · rw [h]
  · rw [h]
    simp [hne]

theorem get_string_other (row : rover_db_row) (key : List Nat)
    (h : AbsentOrOtherTag row key .STRING) : row.get_string key = .error .runtime_error := by
  unfold rover_db_row.get_string
  rcases h with h | ⟨e, h, hne⟩
  · rw [h]
  · rw [h]
    simp [hne]

theorem get_bool_other (row : rover_db_row) (key : List Nat)
    (h : AbsentOrOtherTag row key .BOOLEAN) : row.get_bool key = .error .runtime_error := by
  unfold rover_db_row.get_bool
  rcases h with h | ⟨e, h, hne⟩
  · rw [h]
  · rw [h]
    simp [hne]

theorem find_assign_self (row : rover_db_row) (key : List Nat) (v : rover_db_value) :
    (row.assign key v).find key = some v := by
  rw [find_assign, if_pos rfl]

/-! ### What a write leaves in the file -/

theorem write_not_good (fs : fstream) (bytes : List Nat) (h : fs.good = false) :
    fs.write bytes = { fs with failbit := true } := by
  simp [fstream.write, h]

theorem serialize_not_good (fs : fstream) (bytes : List Nat) (h : fs.good = false) :
    (serialize fs bytes).1 = false := by
  simp [serialize, write_not_good fs bytes h, fstream.good]

theorem insert_row_true_ready (db : rover_db) (t : List Nat) (row : rover_db_row)
    (h : (db.insert_row t row).1 = some true) : db.file_.Ready := by
  by_cases hopen : db.file_.is_open = true
  · refine ⟨hopen, ?_⟩
    by_contra hgood
    have hg : db.file_.good = false := by simpa using hgood
    have hs := serialize_not_good db.file_ [2] hg
    unfold rover_db.insert_row at h
    rw [hopen, fst_false _ hs] at h
    simp at h
  · have : db.file_.is_open = false := by simpa using hopen
    simp [rover_db.insert_row, this] at h

theorem spec_string_eq (s : List Nat) (h : s.length < 2 ^ 32) : string_bytes s = spec_string s :=
  string_bytes_of_lt s h

theorem spec_value_eq (v : rover_db_value) (h : WfValue v) : value_bytes v = spec_value v := by
  obtain ⟨ty, val⟩ := v
  cases ty <;> cases val <;> simp only [WfValue] at h
  all_goals first
    | (simp [value_bytes, spec_value, rover_db_type.toByte, bool_byte]; done)
    | (simp [value_bytes, spec_value, rover_db_type.toByte, bool_byte]
       exact spec_string_eq _ h)

theorem spec_columns_eq (cols : List (List Nat × rover_db_value))
    (h : ∀ pair ∈ cols, pair.1.length < 2 ^ 32 ∧ WfValue pair.2) :
    columns_bytes cols = spec_columns cols := by
  induction cols with
  | nil => rfl
  | cons c cs ih =>
    obtain ⟨hk, hv⟩ := h c (List.mem_cons_self _ _)
    rw [columns_bytes, ih (fun p hp => h p (List.mem_cons_of_mem _ hp)), spec_string_eq _ hk,
      spec_value_eq _ hv, spec_columns]

theorem spec_row_record_eq (t : List Nat) (cols : List (List Nat × rover_db_value))
    (ht : t.length < 2 ^ 32) (h : WfColumns cols) :
    (Record.insertion t cols).bytes = spec_row_record t cols := by
  rw [Record.bytes, Nat.mod_eq_of_lt h.1, spec_columns_eq cols h.2, spec_string_eq t ht]
  simp [spec_row_record]

theorem extends_refl (fs : fstream) : fs.Extends fs := ⟨rfl, [], by simp⟩

theorem extends_trans {a b c : fstream} (h1 : a.Extends b) (h2 : b.Extends c) : a.Extends c := by
  obtain ⟨ho1, x, hx⟩ := h1
  obtain ⟨ho2, y, hy⟩ := h2
  exact ⟨ho2.trans ho1, x ++ y, by rw [hy, hx, List.append_assoc]⟩

theorem write_extends (fs : fstream) (bytes : List Nat) : fs.Extends (fs.write bytes) := by
  unfold fstream.write
  split
  · split
    · exact ⟨rfl, bytes, rfl⟩
    · exact ⟨rfl, [], by simp⟩
  · exact ⟨rfl, [], by simp⟩

theorem serialize_extends (fs : fstream) (bytes : List Nat) :
    fs.Extends (serialize fs bytes).2 := write_extends fs bytes

theorem serialize_string_extends (fs : fstream) (s : List Nat) :
    fs.Extends (serialize_string fs s).2 := by
  unfold serialize_string
  dsimp only
  have h1 := serialize_extends fs (toLE 4 (s.length % 2 ^ 32))
  rcases hs : serialize fs (toLE 4 (s.length % 2 ^ 32)) with ⟨b, fs1⟩
  rw [hs] at h1
  cases b
  · exact h1
  · exact extends_trans h1 (write_extends fs1 _)

theorem serialize_value_extends (fs : fstream) (v : rover_db_value) :
    fs.Extends (serialize_rover_db_value fs v).2 := by
  unfold serialize_rover_db_value
  have h1 := serialize_extends fs [v.type.toByte]
  rcases hs : serialize fs [v.type.toByte] with ⟨b, fs1⟩
  rw [hs] at h1
  cases b
  · exact h1
  · obtain ⟨ty, val⟩ := v
    cases ty <;> cases val <;>
      first
        | exact h1
        | exact extends_trans h1 (serialize_extends fs1 _)
        | exact extends_trans h1 (serialize_string_extends fs1 _)

theorem insert_columns_extends (cols : List (List Nat × rover_db_value)) (fs : fstream) :
    fs.Extends (insert_columns fs cols).2 := by
  induction cols generalizing fs with
  | nil => exact extends_refl fs
  | cons c cs ih =>
    rw [insert_columns_cons]
    have h1 := serialize_string_extends fs c.1
    rcases hs : serialize_string fs c.1 with ⟨b, fs1⟩
    rw [hs] at h1
    cases b
    · exact h1
    · dsimp only
      have h2 := serialize_value_extends fs1 c.2
      rcases hv : serialize_rover_db_value fs1 c.2 with ⟨r, fs2⟩
      rw [hv] at h2
      rcases r with _ | _ | _
      · exact extends_trans h1 h2
      · exact extends_trans h1 h2
      · exact extends_trans h1 (extends_trans h2 (ih fs2))

theorem insert_row_extends (db : rover_db) (t : List Nat) (row : rover_db_row) :
    db.file_.Extends (db.insert_row t row).2.file_ := by
  unfold rover_db.insert_row
  by_cases hopen : db.file_.is_open = true
  · rw [hopen]
    simp only [Bool.not_true, Bool.false_eq_true, if_false]
    have h1 := serialize_extends db.file_ [2]
    rcases hs : serialize db.file_ [2] with ⟨b, fs1⟩
    rw [hs] at h1
    cases b
    · exact h1
    · dsimp only
      have h2 := serialize_string_extends fs1 t
      rcases hs2 : serialize_string fs1 t with ⟨b2, fs2⟩
      rw [hs2] at h2
      cases b2
      · exact extends_trans h1 h2
      · dsimp only
        have h3 := serialize_extends fs2 (toLE 4 (row.data_.length % 2 ^ 32))
        rcases hs3 : serialize fs2 (toLE 4 (row.data_.length % 2 ^ 32)) with ⟨b3, fs3⟩
        rw [hs3] at h3
        cases b3
        · exact extends_trans h1 (extends_trans h2 h3)
        · exact extends_trans h1 (extends_trans h2 (extends_trans h3
            (insert_columns_extends _ fs3)))
  · have : db.file_.is_open = false := by simpa using hopen
    rw [this]
    exact extends_refl _

/-! ### The loop of `bulk_insert` -/

theorem bulk_loop_append (t : List Nat) (xs ys : List rover_db_row) (db : rover_db) :
    rover_db.bulk_loop t (xs ++ ys) db =
      match rover_db.bulk_loop t xs db with
      | (some true, db1) => rover_db.bulk_loop t ys db1
      | (r, db1) => (r, db1) := by
  induction xs generalizing db with
  | nil => rfl
  | cons x xs ih =>
    rw [List.cons_append, bulk_loop_cons, bulk_loop_cons]
    rcases hx : db.insert_row t x with ⟨r, db1⟩
    rcases r with _ | _ | _
    · rfl
    · rfl
    · exact ih db1

theorem bulk_loop_extends (t : List Nat) (rows : List rover_db_row) (db : rover_db) :
    db.file_.Extends (rover_db.bulk_loop t rows db).2.file_ := by
  induction rows generalizing db with
  | nil => exact extends_refl _
  | cons r rs ih =>
    rw [bulk_loop_cons]
    have h1 := insert_row_extends db t r
    rcases hx : db.insert_row t r with ⟨res, db1⟩
    rw [hx] at h1
    rcases res with _ | _ | _
    · exact h1
    · exact h1
    · exact extends_trans h1 (ih db1)

theorem sequential_insert_stopped (t : List Nat) (rows : List rover_db_row)
    (acc : Option Bool × rover_db) (h : acc.1 ≠ some true) :
    rows.foldl (fun acc row => if acc.1 = some true then acc.2.insert_row t row else acc) acc
      = acc := by
  induction rows with
  | nil => rfl
  | cons r rs ih => rw [List.foldl_cons, if_neg h, ih]

theorem bulk_loop_sequential (t : List Nat) (rows : List rover_db_row) (db : rover_db) :
    rover_db.bulk_loop t rows db = sequential_insert db t rows := by
  unfold sequential_insert
  induction rows generalizing db with
  | nil => rfl
  | cons r rs ih =>
    rw [bulk_loop_cons, List.foldl_cons, if_pos rfl]
    rcases hx : db.insert_row t r with ⟨res, db1⟩
    rcases res with _ | _ | _
    · rw [sequential_insert_stopped t rs _ (by simp)]
    · rw [sequential_insert_stopped t rs _ (by simp)]
    · exact ih db1

/-! ### Reads never go back and never change the file -/

theorem advances_refl (fs : fstream) : fs.Advances fs := ⟨rfl, rfl, Nat.le_refl _⟩

theorem advances_trans {a b c : fstream} (h1 : a.Advances b) (h2 : b.Advances c) :
    a.Advances c :=
  ⟨h2.1.trans h1.1, h2.2.1.trans h1.2.1, Nat.le_trans h1.2.2 h2.2.2⟩

theorem read_advances (fs : fstream) (n : Nat) : fs.Advances (fs.read n).2 := by
  unfold fstream.read
  split
  · dsimp only
    split
    · exact ⟨rfl, rfl, Nat.le_add_right _ _⟩
    · exact ⟨rfl, rfl, Nat.le_add_right _ _⟩
  · exact ⟨rfl, rfl, Nat.le_refl _⟩

theorem peek_advances (fs : fstream) : fs.Advances fs.peek.2 := by
  unfold fstream.peek
  split
  · split
    · exact advances_refl fs
    · exact ⟨rfl, rfl, Nat.le_refl _⟩
  · exact ⟨rfl, rfl, Nat.le_refl _⟩

theorem seekg_cur_advances (fs : fstream) (off : Nat) : fs.Advances (fs.seekg_cur off) := by
  unfold fstream.seekg_cur
  dsimp only
  split
  · exact ⟨rfl, rfl, Nat.le_refl _⟩
  · split
    · exact ⟨rfl, rfl, Nat.le_add_right _ _⟩
    · exact ⟨rfl, rfl, Nat.le_refl _⟩

/-- A `peek` that sees a byte leaves the stream as it was: open, flag-free and
with its position before the end of the file. -/
theorem peek_some (fs : fstream) (c : Nat) (fs0 : fstream) (h : fs.peek = (some c, fs0)) :
    fs0 = fs ∧ fs.good = true ∧ fs.is_open = true ∧ fs.pos < fs.content.length := by
  unfold fstream.peek at h
  by_cases hg : fs.good = true
  · rw [if_pos hg] at h
    rcases hh : fs.avail.head? with _ | d
    · rw [hh] at h
      simp at h
    · rw [hh] at h
      simp only [Prod.mk.injEq, Option.some.injEq] at h
      refine ⟨h.2.symm, hg, ?_⟩
      unfold fstream.avail at hh
      by_cases ho : fs.is_open = true
      · rw [if_pos ho] at hh
        refine ⟨ho, ?_⟩
        by_contra hlt
        rw [List.drop_eq_nil_of_le (by omega)] at hh
        simp at hh
      · rw [if_neg ho] at hh
        simp at hh
  · rw [if_neg hg] at h
    simp at h

/-- A successful `deserialize` of `n` bytes: the stream was open (for `n > 0`)
and flag-free, the bytes are the next `n` of the file, and only the position
has changed, by `n`. -/
theorem deserialize_some (fs : fstream) (n : Nat) (bs : List Nat) (fs1 : fstream)
    (h : deserialize fs n = (some bs, fs1)) :
    fs.good = true ∧ fs1 = { fs with pos := fs.pos + n } ∧ bs = fs.avail.take n ∧
      bs.length = n := by
  unfold deserialize fstream.read at h
  by_cases hg : fs.good = true
  · rw [if_pos hg] at h
    dsimp only at h
    by_cases hl : (List.take n fs.avail).length = n
    · rw [if_pos hl] at h
      simp only [Prod.mk.injEq] at h
      have hgood : ({ fs with pos := fs.pos + n } : fstream).good = true := hg
      rw [hgood] at h
      simp only [if_true, Option.some.injEq] at h
      exact ⟨hg, h.2.symm, h.1.symm, h.1 ▸ hl⟩
    · rw [if_neg hl] at h
      simp [fstream.good] at h
  · rw [if_neg hg] at h
    simp [fstream.good] at h

/-- A failed `deserialize` on an open, flag-free stream: fewer than `n` bytes
are left. -/
theorem deserialize_none (fs : fstream) (n : Nat) (h : (deserialize fs n).1 = none)
    (hr : fs.Ready) : fs.content.length < fs.pos + n := by
  unfold deserialize fstream.read at h
  rw [if_pos hr.2] at h
  dsimp only at h
  by_cases hl : (List.take n fs.avail).length = n
  · rw [if_pos hl] at h
    have hgood : ({ fs with pos := fs.pos + n } : fstream).good = true := hr.2
    simp [hgood] at h
  · rw [List.length_take] at hl
    unfold fstream.avail at hl
    rw [if_pos hr.1, List.length_drop] at hl
    omega

theorem deserialize_advances (fs : fstream) (n : Nat) : fs.Advances (deserialize fs n).2 :=
  read_advances fs n

theorem deserialize_some_ready (fs : fstream) (n : Nat) (bs : List Nat) (fs1 : fstream)
    (h : deserialize fs n = (some bs, fs1)) (ho : fs.is_open = true) : fs1.Ready := by
  obtain ⟨hg, rfl, _, _⟩ := deserialize_some fs n bs fs1 h
  exact ⟨ho, hg⟩

theorem deserialize_string_advances (fs : fstream) : fs.Advances (deserialize_string fs).2 := by
  unfold deserialize_string
  have h1 := deserialize_advances fs 4
  rcases hd : deserialize fs 4 with ⟨_ | bs, fs1⟩
  · rw [hd] at h1
    exact h1
  · rw [hd] at h1
    exact advances_trans h1 (read_advances fs1 _)

/-- A successful `deserialize_string`: the length field and the content were
read one after the other, and the stream is flag-free afterwards. -/
theorem deserialize_string_some (fs : fstream) (s : List Nat) (fs2 : fstream)
    (h : deserialize_string fs = (some s, fs2)) :
    ∃ len fs1, deserialize fs 4 = (some len, fs1) ∧ deserialize fs1 (ofLE len) = (some s, fs2) := by
  unfold deserialize_string at h
  rcases hd : deserialize fs 4 with ⟨_ | len, fs1⟩
  · rw [hd] at h
    simp at h
  · rw [hd] at h
    exact ⟨len, fs1, rfl, h⟩

theorem deserialize_string_some_ready (fs : fstream) (s : List Nat) (fs2 : fstream)
    (h : deserialize_string fs = (some s, fs2)) (ho : fs.is_open = true) : fs2.Ready := by
  obtain ⟨len, fs1, h1, h2⟩ := deserialize_string_some fs s fs2 h
  exact deserialize_some_ready fs1 _ s fs2 h2 (deserialize_some_ready fs 4 len fs1 h1 ho).1

theorem deserialize_value_advances (fs : fstream) :
    fs.Advances (deserialize_rover_db_value fs).2 := by
  unfold deserialize_rover_db_value
  have h1 := deserialize_advances fs 1
  rcases hd : deserialize fs 1 with ⟨_ | tag, fs1⟩
  · rw [hd] at h1
    exact h1
  · rw [hd] at h1
    dsimp only
    split_ifs
    · have h2 := deserialize_advances fs1 8
      rcases hd2 : deserialize fs1 8 with ⟨_ | bs, fs2⟩ <;> rw [hd2] at h2 <;>
        exact advances_trans h1 h2
    · have h2 := deserialize_advances fs1 8
      rcases hd2 : deserialize fs1 8 with ⟨_ | bs, fs2⟩ <;> rw [hd2] at h2 <;>
        exact advances_trans h1 h2
    · have h2 := deserialize_string_advances fs1
      rcases hd2 : deserialize_string fs1 with ⟨_ | bs, fs2⟩ <;> rw [hd2] at h2 <;>
        exact advances_trans h1 h2
    · have h2 := deserialize_advances fs1 1
      rcases hd2 : deserialize fs1 1 with ⟨_ | bs, fs2⟩ <;> rw [hd2] at h2 <;>
        exact advances_trans h1 h2
    · exact h1

/-- A value that `deserialize_rover_db_value` returns has a tag from INTEGER to
BOOLEAN and the payload of that tag. -/
theorem deserialize_value_agrees (fs : fstream) (v : rover_db_value) (fs2 : fstream)
    (h : deserialize_rover_db_value fs = (some v, fs2)) : TagAgrees v := by
  unfold deserialize_rover_db_value at h
  rcases hd : deserialize fs 1 with ⟨_ | tag, fs1⟩
  · rw [hd] at h
    simp at h
  · rw [hd] at h
    dsimp only at h
    split_ifs at h
    · rcases hd2 : deserialize fs1 8 with ⟨_ | bs, fs3⟩ <;> rw [hd2] at h <;>
        simp only [Prod.mk.injEq, Option.some.injEq, reduceCtorEq, false_and] at h
      rw [← h.1]
      trivial
    · rcases hd2 : deserialize fs1 8 with ⟨_ | bs, fs3⟩ <;> rw [hd2] at h <;>
        simp only [Prod.mk.injEq, Option.some.injEq, reduceCtorEq, false_and] at h
      rw [← h.1]
      trivial
    · rcases hd2 : deserialize_string fs1 with ⟨_ | bs, fs3⟩ <;> rw [hd2] at h <;>
        simp only [Prod.mk.injEq, Option.some.injEq, reduceCtorEq, false_and] at h
      rw [← h.1]
      trivial
    · rcases hd2 : deserialize fs1 1 with ⟨_ | bs, fs3⟩ <;> rw [hd2] at h <;>
        simp only [Prod.mk.injEq, Option.some.injEq, reduceCtorEq, false_and] at h
      rw [← h.1]
      trivial
    · simp at h

theorem mem_map_assign (m : List (List Nat × rover_db_value)) (key : List Nat)
    (v : rover_db_value) (p : List Nat × rover_db_value) (h : p ∈ map_assign m key v) :
    p ∈ m ∨ p.2 = v := by
  unfold map_assign at h
  split at h
  · obtain ⟨q, hq, rfl⟩ := List.mem_map.mp h
    by_cases hk : q.1 = key
    · rw [if_pos hk]
      exact Or.inr rfl
    · rw [if_neg hk]
      exact Or.inl hq
  · rcases List.mem_cons.mp h with rfl | h
    · exact Or.inr rfl
    · exact Or.inl h

theorem row_agrees_assign (row : rover_db_row) (key : List Nat) (v : rover_db_value)
    (h : RowAgrees row) (hv : TagAgrees v) : RowAgrees (row.assign key v) := by
  intro p hp
  rcases mem_map_assign row.data_ key v p hp with h1 | h1
  · exact h p h1
  · rw [h1]
    exact hv

theorem row_agrees_empty : RowAgrees rover_db_row.empty := by
  intro p hp
  simp [rover_db_row.empty] at hp

theorem read_columns_advances (n : Nat) (fs : fstream) (row : rover_db_row) :
    fs.Advances (read_columns n fs row).2 := by
  induction n generalizing fs row with
  | zero => exact advances_refl fs
  | succ n ih =>
    rw [read_columns_succ]
    have h1 := deserialize_string_advances fs
    rcases hd : deserialize_string fs with ⟨_ | key, fs1⟩ <;> rw [hd] at h1
    · exact h1
    · dsimp only
      have h2 := deserialize_value_advances fs1
      rcases hd2 : deserialize_rover_db_value fs1 with ⟨_ | v, fs2⟩ <;> rw [hd2] at h2
      · exact advances_trans h1 h2
      · exact advances_trans h1 (advances_trans h2 (ih fs2 _))

theorem read_columns_agrees (n : Nat) (fs : fstream) (row row1 : rover_db_row) (fs1 : fstream)
    (h : read_columns n fs row = (some row1, fs1)) (hrow : RowAgrees row) : RowAgrees row1 := by
  induction n generalizing fs row with
  | zero =>
    rw [read_columns_zero] at h
    simp only [Prod.mk.injEq, Option.some.injEq] at h
    rw [← h.1]
    exact hrow
  | succ n ih =>
    rw [read_columns_succ] at h
    rcases hd : deserialize_string fs with ⟨_ | key, fs2⟩ <;> rw [hd] at h
    · simp at h
    · dsimp only at h
      rcases hd2 : deserialize_rover_db_value fs2 with ⟨_ | v, fs3⟩ <;> rw [hd2] at h
      · simp at h
      · exact ih fs3 _ h (row_agrees_assign row key v hrow (deserialize_value_agrees fs2 v fs3 hd2))

theorem skip_columns_advances (n : Nat) (fs : fstream) : fs.Advances (skip_columns n fs).2 := by
  induction n generalizing fs with
  | zero => exact advances_refl fs
  | succ n ih =>
    rw [skip_columns_succ]
    have h1 := deserialize_string_advances fs
    rcases hd : deserialize_string fs with ⟨_ | key, fs1⟩ <;> rw [hd] at h1
    · exact h1
    · dsimp only
      have h2 := advances_trans h1 (deserialize_advances fs1 1)
      rcases hd2 : deserialize fs1 1 with ⟨_ | raw, fs2⟩ <;> rw [hd2] at h2
      · exact h2
      · dsimp only
        split_ifs
        · exact advances_trans h2 (advances_trans (seekg_cur_advances fs2 8) (ih _))
        · exact advances_trans h2 (advances_trans (seekg_cur_advances fs2 8) (ih _))
        · have h3 := advances_trans h2 (deserialize_advances fs2 4)
          rcases hd3 : deserialize fs2 4 with ⟨_ | sz, fs3⟩ <;> rw [hd3] at h3
          · exact h3
          · exact advances_trans h3 (advances_trans (seekg_cur_advances fs3 _) (ih _))
        · exact advances_trans h2 (advances_trans (seekg_cur_advances fs2 1) (ih _))
        · exact h2

/-! ### The record loop ends -/

theorem rows_agree_snoc (rows : List rover_db_row) (row : rover_db_row) (h : RowsAgree rows)
    (hrow : RowAgrees row) : RowsAgree (rows ++ [row]) := by
  intro r hr
  rcases List.mem_append.mp hr with h1 | h1
  · exact h r h1
  · rw [List.mem_singleton.mp h1]
    exact hrow

/-- With more fuel than bytes left in the file the record loop ends: every
iteration either leaves the loop or takes at least the kind byte from the file.
The stream it leaves reads the same file, and it adds no value whose payload
disagrees with its tag. -/
theorem scan_loop_ends (t : List Nat) (fuel : Nat) :
    ∀ (fs : fstream) (rows : List rover_db_row), fs.content.length - fs.pos < fuel →
      ∃ rows1 fs1, scan_loop t fuel fs rows = some (rows1, fs1) ∧ fs.Advances fs1 ∧
        (RowsAgree rows → RowsAgree rows1) := by
  induction fuel with
  | zero =>
    intro fs rows h
    omega
  | succ fuel ih =>
    intro fs rows hfuel
    rw [scan_loop_succ]
    have hp0 := peek_advances fs
    rcases hp : fs.peek with ⟨_ | c, fs0⟩ <;> rw [hp] at hp0
    · exact ⟨rows, fs0, rfl, hp0, id⟩
    · obtain ⟨rfl, hg, ho, hlt⟩ := peek_some fs c fs0 hp
      dsimp only
      have h1 := deserialize_advances fs0 1
      rcases hd : deserialize fs0 1 with ⟨_ | rt, fs1⟩ <;> rw [hd] at h1
      · exact ⟨rows, fs1, rfl, h1, id⟩
      · have hpos : fs1.pos = fs0.pos + 1 := by
          obtain ⟨_, rfl, _, _⟩ := deserialize_some fs0 1 rt fs1 hd
          rfl
        have step : ∀ (fs2 : fstream) (rows2 : List rover_db_row), fs1.Advances fs2 →
            ∃ rows1 fs3, scan_loop t fuel fs2 rows2 = some (rows1, fs3) ∧ fs0.Advances fs3 ∧
              (RowsAgree rows2 → RowsAgree rows1) := by
          intro fs2 rows2 hadv
          have hlen : fs2.content.length - fs2.pos < fuel := by
            have e1 := hadv.2.2
            rw [hadv.1, h1.1]
            omega
          obtain ⟨r, f, h, ha, hr⟩ := ih fs2 rows2 hlen
          exact ⟨r, f, h, advances_trans h1 (advances_trans hadv ha), hr⟩
        dsimp only
        split_ifs with hk1 hk2
        · have h2 := deserialize_string_advances fs1
          rcases hs : deserialize_string fs1 with ⟨_ | name, fs2⟩ <;> rw [hs] at h2
          · exact ⟨rows, fs2, rfl, advances_trans h1 h2, id⟩
          · exact step fs2 rows h2
        · have h2 := deserialize_string_advances fs1
          rcases hs : deserialize_string fs1 with ⟨_ | name, fs2⟩ <;> rw [hs] at h2
          · exact ⟨rows, fs2, rfl, advances_trans h1 h2, id⟩
          · dsimp only
            have h3 := advances_trans h2 (deserialize_advances fs2 4)
            split_ifs with hname
            · rcases hn : deserialize fs2 4 with ⟨_ | nc, fs3⟩ <;> rw [hn] at h3
              · exact ⟨rows, fs3, rfl, advances_trans h1 h3, id⟩
              · dsimp only
                have h4 := advances_trans h3
                  (read_columns_advances (ofLE nc) fs3 rover_db_row.empty)
                rcases hr : read_columns (ofLE nc) fs3 rover_db_row.empty with ⟨_ | row, fs4⟩ <;>
                  rw [hr] at h4
                · exact ⟨rows, fs4, rfl, advances_trans h1 h4, id⟩
                · obtain ⟨r, f, h, ha, hagree⟩ := step fs4 (rows ++ [row]) h4
                  exact ⟨r, f, h, ha, fun hrows => hagree (rows_agree_snoc rows row hrows
                    (read_columns_agrees _ fs3 _ row fs4 hr row_agrees_empty))⟩
            · rcases hn : deserialize fs2 4 with ⟨_ | nc, fs3⟩ <;> rw [hn] at h3
              · exact ⟨rows, fs3, rfl, advances_trans h1 h3, id⟩
              · dsimp only
                have h4 := advances_trans h3 (skip_columns_advances (ofLE nc) fs3)
                rcases hr : skip_columns (ofLE nc) fs3 with ⟨_ | _, fs4⟩ <;> rw [hr] at h4
                · exact ⟨rows, fs4, rfl, advances_trans h1 h4, id⟩
                · exact step fs4 rows h4
        · exact step fs1 rows (advances_refl fs1)

/-- The scan returns: `get_table` never runs out of fuel.  The database it
leaves holds the same file and is open like the one it started from. -/
theorem get_table_returns (db : rover_db) (t : List Nat) :
    ∃ rows db1, db.get_table t = some (rows, db1) ∧ db1.file_.content = db.file_.content ∧
      db1.file_.is_open = db.file_.is_open ∧ RowsAgree rows := by
  unfold rover_db.get_table
  by_cases ho : db.file_.is_open = true
  · rw [ho]
    simp only [Bool.not_true, Bool.false_eq_true, if_false]
    obtain ⟨rows1, fs1, h, ha, hr⟩ := scan_loop_ends t (db.file_.content.length + 1)
      db.file_.clear.seekg_beg [] (by
        rw [clear_seekg_beg _ ho]
        simp [fstream.cursor])
    rw [h]
    refine ⟨rows1, ⟨fs1⟩, rfl, ?_, ?_, hr (fun r hr => by simp at hr)⟩
    · rw [ha.1, clear_seekg_beg _ ho]
      rfl
    · rw [ha.2.1, clear_seekg_beg _ ho]
      rfl
  · have hf : db.file_.is_open = false := by simpa using ho
    rw [hf]
    exact ⟨[], db, rfl, rfl, hf, fun r hr => by simp at hr⟩

/-- The rows `get_table` returns depend on the file alone, not on the position
or the flags the stream had before. -/
theorem get_table_of_content (db db1 : rover_db) (t : List Nat)
    (ho : db.file_.is_open = true) (ho1 : db1.file_.is_open = true)
    (hc : db1.file_.content = db.file_.content) : db1.get_table t = db.get_table t := by
  unfold rover_db.get_table
  rw [ho, ho1, clear_seekg_beg _ ho, clear_seekg_beg _ ho1, hc]
  simp

/-- A loop that has ended with some fuel ends the same way with more. -/
theorem scan_loop_mono (t : List Nat) (fuel : Nat) :
    ∀ (fs : fstream) (rows : List rover_db_row) (r : List rover_db_row × fstream),
      scan_loop t fuel fs rows = some r → scan_loop t (fuel + 1) fs rows = some r := by
  induction fuel with
  | zero =>
    intro fs rows r h
    simp [scan_loop] at h
  | succ fuel ih =>
    intro fs rows r h
    rw [scan_loop_succ] at h ⊢
    rcases hp : fs.peek with ⟨_ | c, fs0⟩ <;> rw [hp] at h <;> dsimp only at h ⊢
    · exact h
    · rcases hd : deserialize fs0 1 with ⟨_ | rt, fs1⟩ <;> rw [hd] at h <;> dsimp only at h ⊢
      · exact h
      · split_ifs at h ⊢ with hk1 hk2
        · rcases hs : deserialize_string fs1 with ⟨_ | name, fs2⟩ <;> rw [hs] at h <;>
            dsimp only at h ⊢
          · exact h
          · exact ih _ _ _ h
        · rcases hs : deserialize_string fs1 with ⟨_ | name, fs2⟩ <;> rw [hs] at h <;>
            dsimp only at h ⊢
          · exact h
          · split_ifs at h ⊢ with hname
            · rcases hn : deserialize fs2 4 with ⟨_ | nc, fs3⟩ <;> rw [hn] at h <;>
                dsimp only at h ⊢
              · exact h
              · rcases hr : read_columns (ofLE nc) fs3 rover_db_row.empty with ⟨_ | row, fs4⟩ <;>
                  rw [hr] at h <;> dsimp only at h ⊢
                · exact h
                · exact ih _ _ _ h
            · rcases hn : deserialize fs2 4 with ⟨_ | nc, fs3⟩ <;> rw [hn] at h <;>
                dsimp only at h ⊢
              · exact h
              · rcases hr : skip_columns (ofLE nc) fs3 with ⟨_ | _, fs4⟩ <;>
                  rw [hr] at h <;> dsimp only at h ⊢
                · exact h
                · exact ih _ _ _ h
        · exact ih _ _ _ h

theorem scan_loop_mono_add (t : List Nat) (fuel more : Nat) (fs : fstream)
    (rows : List rover_db_row) (r : List rover_db_row × fstream)
    (h : scan_loop t fuel fs rows = some r) : scan_loop t (fuel + more) fs rows = some r := by
  induction more with
  | zero => exact h
  | succ more ih => exact scan_loop_mono t (fuel + more) fs rows r ih

theorem ofLE_lt (bs : List Nat) (h : ∀ b ∈ bs, b < 256) : ofLE bs < 256 ^ bs.length := by
  induction bs with
  | nil => simp [ofLE]
  | cons b bs ih =>
    have hb := h b (List.mem_cons_self _ _)
    have := ih (fun x hx => h x (List.mem_cons_of_mem _ hx))
    simp only [ofLE, List.length_cons, pow_succ]
    omega

theorem built_agrees (row : rover_db_row) (h : Built row) : RowAgrees row := by
  induction h with
  | empty => exact row_agrees_empty
  | add_int row key v _ ih => exact row_agrees_assign row key _ ih trivial
  | add_float row key v _ ih => exact row_agrees_assign row key _ ih trivial
  | add_string row key v _ ih => exact row_agrees_assign row key _ ih trivial
  | add_bool row key v _ ih => exact row_agrees_assign row key _ ih trivial

theorem tag_agrees_not_none (v : rover_db_value) (h : TagAgrees v) : v.type ≠ .NONE := by
  obtain ⟨ty, val⟩ := v
  cases ty <;> cases val <;> simp [TagAgrees] at h ⊢

/-! ### Skipping a row against decoding it -/

theorem skip_columns_succ_value (n : Nat) (fs : fstream) :
    skip_columns (n + 1) fs =
      match deserialize_string fs with
      | (none, fs1) => (false, fs1)
      | (some _, fs1) =>
        match skip_value fs1 with
        | (false, fs2) => (false, fs2)
        | (true, fs2) => skip_columns n fs2 := by
  rw [skip_columns_succ]
  rcases hs : deserialize_string fs with ⟨_ | key, fs1⟩
  · rfl
  · dsimp only
    unfold skip_value
    rcases hd : deserialize fs1 1 with ⟨_ | raw, fs2⟩
    · rfl
    · dsimp only
      split_ifs
      · rfl
      · rfl
      · rcases hd3 : deserialize fs2 4 with ⟨_ | sz, fs3⟩ <;> rfl
      · rfl
      · rfl

theorem deserialize_string_eq (fs : fstream) :
    deserialize_string fs =
      match deserialize fs 4 with
      | (none, fs1) => (none, fs1)
      | (some bs, fs1) => deserialize fs1 (ofLE bs) := rfl

/-- On an open, flag-free stream a successful `deserialize` of `n` bytes leaves
the stream that `seekg(n, cur)` leaves. -/
theorem seekg_cur_of_deserialize (fs : fstream) (n : Nat) (bs : List Nat) (fs1 : fstream)
    (hr : fs.Ready) (h : deserialize fs n = (some bs, fs1)) : fs.seekg_cur n = fs1 := by
  obtain ⟨hg, rfl, _, _⟩ := deserialize_some fs n bs fs1 h
  obtain ⟨ho, _⟩ := hr
  cases fs
  simp only [fstream.good, Bool.and_eq_true, Bool.not_eq_true'] at hg
  simp_all [fstream.seekg_cur, fstream.fail]

/-- On an open, flag-free stream with fewer than `n` bytes left, `seekg(n, cur)`
leaves a stream with nothing to read. -/
theorem seekg_cur_of_deserialize_none (fs : fstream) (n : Nat) (hr : fs.Ready)
    (h : (deserialize fs n).1 = none) : (fs.seekg_cur n).Exhausted := by
  have hlen := deserialize_none fs n h hr
  obtain ⟨ho, hg⟩ := hr
  cases fs
  simp only [fstream.good, Bool.and_eq_true, Bool.not_eq_true'] at hg
  simp_all [fstream.seekg_cur, fstream.fail, fstream.Exhausted, fstream.good]
  omega

/-- One value, skipped and decoded from the same open, flag-free stream: either
both succeed and leave the same stream, or the decoder fails and the skip either
jumps to `end_loop` or has nothing left to read. -/
theorem skip_value_vs_decode (fs : fstream) (hr : fs.Ready) :
    (∃ v fs2, deserialize_rover_db_value fs = (some v, fs2) ∧ skip_value fs = (true, fs2)) ∨
    ((deserialize_rover_db_value fs).1 = none ∧ SkipEnds (skip_value fs)) := by
  unfold deserialize_rover_db_value skip_value
  rcases hd : deserialize fs 1 with ⟨_ | raw, fs1⟩
  · exact Or.inr ⟨rfl, Or.inl rfl⟩
  · have hr1 := deserialize_some_ready fs 1 raw fs1 hd hr.1
    dsimp only
    split_ifs
    · rcases hd2 : deserialize fs1 8 with ⟨_ | bs, fs2⟩
      · exact Or.inr ⟨rfl, Or.inr (seekg_cur_of_deserialize_none fs1 8 hr1 (by rw [hd2]))⟩
      · exact Or.inl ⟨_, fs2, rfl, by rw [seekg_cur_of_deserialize fs1 8 bs fs2 hr1 hd2]⟩
    · rcases hd2 : deserialize fs1 8 with ⟨_ | bs, fs2⟩
      · exact Or.inr ⟨rfl, Or.inr (seekg_cur_of_deserialize_none fs1 8 hr1 (by rw [hd2]))⟩
      · exact Or.inl ⟨_, fs2, rfl, by rw [seekg_cur_of_deserialize fs1 8 bs fs2 hr1 hd2]⟩
    · rw [deserialize_string_eq]
      rcases hd2 : deserialize fs1 4 with ⟨_ | len, fs2⟩
      · exact Or.inr ⟨rfl, Or.inl rfl⟩
      · have hr2 := deserialize_some_ready fs1 4 len fs2 hd2 hr1.1
        dsimp only
        rcases hd3 : deserialize fs2 (ofLE len) with ⟨_ | s, fs3⟩
        · exact Or.inr ⟨rfl,
            Or.inr (seekg_cur_of_deserialize_none fs2 _ hr2 (by rw [hd3]))⟩
        · exact Or.inl ⟨_, fs3, rfl,
            by rw [seekg_cur_of_deserialize fs2 _ s fs3 hr2 hd3]⟩
    · rcases hd2 : deserialize fs1 1 with ⟨_ | bs, fs2⟩
      · exact Or.inr ⟨rfl, Or.inr (seekg_cur_of_deserialize_none fs1 1 hr1 (by rw [hd2]))⟩
      · exact Or.inl ⟨_, fs2, rfl, by rw [seekg_cur_of_deserialize fs1 1 bs fs2 hr1 hd2]⟩
    · exact Or.inr ⟨rfl, Or.inl rfl⟩

/-- The two column loops from the same open stream: either both run through and
leave the same stream, or the decoding loop fails and the skipping loop either
jumps to `end_loop` or has nothing left to read. -/
theorem skip_columns_vs_read (n : Nat) :
    ∀ (fs : fstream) (row : rover_db_row), fs.is_open = true →
      (∃ row1 fs1, read_columns n fs row = (some row1, fs1) ∧ skip_columns n fs = (true, fs1)) ∨
      ((read_columns n fs row).1 = none ∧ SkipEnds (skip_columns n fs)) := by
  induction n with
  | zero =>
    intro fs row _
    exact Or.inl ⟨row, fs, rfl, rfl⟩
  | succ n ih =>
    intro fs row ho
    rw [read_columns_succ, skip_columns_succ_value]
    rcases hs : deserialize_string fs with ⟨_ | key, fs1⟩
    · exact Or.inr ⟨rfl, Or.inl rfl⟩
    · have hr1 := deserialize_string_some_ready fs key fs1 hs ho
      dsimp only
      rcases skip_value_vs_decode fs1 hr1 with ⟨v, fs2, hv, hk⟩ | ⟨hv, hk⟩
      · rw [hv, hk]
        dsimp only
        have hadv := deserialize_value_advances fs1
        rw [hv] at hadv
        exact ih fs2 _ (hadv.2.1.trans hr1.1)
      · rw [fst_none _ hv]
        refine Or.inr ⟨rfl, ?_⟩
        rcases hsk : skip_value fs1 with ⟨_ | _, fs2⟩
        · exact Or.inl rfl
        · rw [hsk] at hk
          rcases hk with hk | hk
          · simp at hk
          · exact exhausted_skip_columns fs2 hk n

theorem reference_scan_loop_succ (t : List Nat) (fuel : Nat) (fs : fstream)
    (rows : List rover_db_row) :
    reference_scan_loop t (fuel + 1) fs rows =
      match fs.peek with
      | (none, fs0) => some (rows, fs0)
      | (some _, fs0) =>
        match deserialize fs0 1 with
        | (none, fs1) => some (rows, fs1)
        | (some record_type, fs1) =>
          if ofLE record_type = 1 then
            match deserialize_string fs1 with
            | (none, fs2) => some (rows, fs2)
            | (some _, fs2) => reference_scan_loop t fuel fs2 rows
          else if ofLE record_type = 2 then
            match deserialize_string fs1 with
            | (none, fs2) => some (rows, fs2)
            | (some stored_table_name, fs2) =>
              match deserialize fs2 4 with
              | (none, fs3) => some (rows, fs3)
              | (some num_columns, fs3) =>
                match read_columns (ofLE num_columns) fs3 rover_db_row.empty with
                | (none, fs4) => some (rows, fs4)
                | (some row, fs4) =>
                  if stored_table_name = t then
                    reference_scan_loop t fuel fs4 (rows ++ [row])
                  else
                    reference_scan_loop t fuel fs4 rows
          else
            reference_scan_loop t fuel fs1 rows := rfl

/-- With more fuel than bytes left, the record loop and the reference loop return
the same rows from every open stream. -/
theorem scan_loop_reference (t : List Nat) (fuel : Nat) :
    ∀ (fs : fstream) (rows : List rover_db_row), fs.is_open = true →
      fs.content.length - fs.pos < fuel →
      (scan_loop t fuel fs rows).map Prod.fst
        = (reference_scan_loop t fuel fs rows).map Prod.fst := by
  induction fuel with
  | zero =>
    intro fs rows _ h
    omega
  | succ fuel ih =>
    intro fs rows ho hfuel
    rw [scan_loop_succ, reference_scan_loop_succ]
    rcases hp : fs.peek with ⟨_ | c, fs0⟩
    · rfl
    · obtain ⟨rfl, hg, _, hlt⟩ := peek_some fs c fs0 hp
      dsimp only
      have h1 := deserialize_advances fs0 1
      rcases hd : deserialize fs0 1 with ⟨_ | rt, fs1⟩
      · rfl
      · rw [hd] at h1
        have hpos : fs1.pos = fs0.pos + 1 := by
          obtain ⟨_, rfl, _, _⟩ := deserialize_some fs0 1 rt fs1 hd
          rfl
        have hfuel1 : 0 < fuel := by omega
        have step : ∀ (fs2 : fstream) (rows2 : List rover_db_row), fs1.Advances fs2 →
            (scan_loop t fuel fs2 rows2).map Prod.fst
              = (reference_scan_loop t fuel fs2 rows2).map Prod.fst := by
          intro fs2 rows2 hadv
          have hlen : fs2.content.length - fs2.pos < fuel := by
            have e1 := hadv.2.2
            rw [hadv.1, h1.1]
            omega
          exact ih fs2 rows2 (hadv.2.1.trans (h1.2.1.trans ho)) hlen
        dsimp only
        split_ifs with hk1 hk2
        · have h2 := deserialize_string_advances fs1
          rcases hs : deserialize_string fs1 with ⟨_ | name, fs2⟩
          · rfl
          · rw [hs] at h2
            exact step fs2 rows h2
        · have h2 := deserialize_string_advances fs1
          rcases hs : deserialize_string fs1 with ⟨_ | name, fs2⟩
          · rfl
          · rw [hs] at h2
            dsimp only
            have h3 := advances_trans h2 (deserialize_advances fs2 4)
            rcases hn : deserialize fs2 4 with ⟨_ | nc, fs3⟩
            · split_ifs <;> rfl
            · rw [hn] at h3
              dsimp only
              have ho3 : fs3.is_open = true := h3.2.1.trans (h1.2.1.trans ho)
              by_cases hname : name = t
              · rw [if_pos hname]
                have h4 := advances_trans h3
                  (read_columns_advances (ofLE nc) fs3 rover_db_row.empty)
                rcases hr : read_columns (ofLE nc) fs3 rover_db_row.empty with ⟨_ | row, fs4⟩
                · rfl
                · rw [hr] at h4
                  dsimp only
                  rw [if_pos hname]
                  exact step fs4 _ h4
              · rw [if_neg hname]
                rcases skip_columns_vs_read (ofLE nc) fs3 rover_db_row.empty ho3 with
                  ⟨row1, fs4, hrd, hsk⟩ | ⟨hrd, hsk⟩
                · rw [hrd, hsk]
                  dsimp only
                  rw [if_neg hname]
                  have h4 := advances_trans h3
                    (read_columns_advances (ofLE nc) fs3 rover_db_row.empty)
                  rw [hrd] at h4
                  exact step fs4 rows h4
                · rw [fst_none _ hrd]
                  dsimp only
                  rcases hsk2 : skip_columns (ofLE nc) fs3 with ⟨_ | _, fs4⟩
                  · rfl
                  · rw [hsk2] at hsk
                    rcases hsk with hsk | hsk
                    · simp at hsk
                    · dsimp only
                      obtain ⟨k, hk⟩ : ∃ k, fuel = k + 1 := ⟨fuel - 1, by omega⟩
                      obtain ⟨fs5, h5⟩ := exhausted_scan_loop t k fs4 hsk rows
                      rw [hk, h5]
                      rfl
        · exact step fs1 rows (advances_refl fs1)

/-! ### A row with a NONE-tagged value -/

theorem insert_columns_none (before : List (List Nat × rover_db_value)) (key : List Nat)
    (payload : variant) (after : List (List Nat × rover_db_value)) (fs : fstream)
    (h : fs.Ready) (hpos : fs.pos = fs.content.length)
    (hv : ∀ pair ∈ before, WfValue pair.2) :
    insert_columns fs (before ++ (key, ⟨.NONE, payload⟩) :: after)
      = (some false, fs.append (columns_bytes before ++ (string_bytes key ++ [0]))) := by
  induction before generalizing fs with
  | nil =>
    have h1 := append_ready fs h (string_bytes key)
    rw [List.nil_append, insert_columns_cons, serialize_string_ready fs h]
    dsimp only
    unfold serialize_rover_db_value
    rw [serialize_ready _ h1]
    dsimp only
    rw [append_append]
    rfl
  | cons c cs ih =>
    have h1 := append_ready fs h (string_bytes c.1)
    have h2 := append_ready _ h1 (value_bytes c.2)
    rw [List.cons_append, insert_columns_cons, serialize_string_ready fs h]
    dsimp only
    rw [serialize_value_ready _ h1 _ (hv c (List.mem_cons_self _ _))]
    dsimp only
    rw [ih _ h2 (append_pos _ _) (fun p hp => hv p (List.mem_cons_of_mem _ hp)), append_append,
      append_append, columns_bytes]
    simp only [List.append_assoc]

theorem insert_row_none (db : rover_db) (t : List Nat)
    (before : List (List Nat × rover_db_value)) (key : List Nat) (payload : variant)
    (after : List (List Nat × rover_db_value)) (h : db.file_.Ready)
    (hv : ∀ pair ∈ before, WfValue pair.2) :
    db.insert_row t ⟨before ++ (key, ⟨.NONE, payload⟩) :: after⟩
      = (some false, ⟨db.file_.append
          (torn_row_bytes t (before ++ (key, ⟨.NONE, payload⟩) :: after).length before key)⟩) := by
  have h1 := append_ready _ h [2]
  have h2 := append_ready _ h1 (string_bytes t)
  have h3 := append_ready _ h2
    (toLE 4 ((before ++ (key, (⟨.NONE, payload⟩ : rover_db_value)) :: after).length % 2 ^ 32))
  unfold rover_db.insert_row
  rw [h.1, serialize_ready _ h]
  dsimp only [Bool.not_true]
  rw [if_neg (by decide), serialize_string_ready _ h1]
  dsimp only
  rw [serialize_ready _ h2]
  dsimp only
  rw [insert_columns_none _ _ _ _ _ h3 (append_pos _ _) hv, append_append, append_append,
    append_append]
  rfl

theorem read_columns_none_tag (before : List (List Nat × rover_db_value)) (key : List Nat)
    (more : Nat) (a tail : List Nat) (row : rover_db_row)
    (hwf : ∀ pair ∈ before, pair.1.length < 2 ^ 32 ∧ WfValue pair.2)
    (hkey : key.length < 2 ^ 32) :
    (read_columns (before.length + (more + 1))
      (fstream.cursor a (columns_bytes before ++ (string_bytes key ++ 0 :: tail))) row).1
      = none := by
  induction before generalizing a row with
  | nil =>
    rw [List.length_nil, Nat.zero_add, read_columns_succ, columns_bytes, List.nil_append,
      deserialize_string_cursor a key _ hkey]
    dsimp only
    rw [fst_none _ (deserialize_value_rejected _ (0 :: tail)
      (Or.inr (Or.inl ⟨0, tail, rfl, by decide, by decide, by decide, by decide⟩)))]
  | cons c cs ih =>
    obtain ⟨hk, hv⟩ := hwf c (List.mem_cons_self _ _)
    rw [List.length_cons, Nat.add_right_comm, read_columns_succ, columns_bytes,
      List.append_assoc, List.append_assoc, deserialize_string_cursor a c.1 _ hk]
    dsimp only
    rw [deserialize_value_cursor _ c.2 _ hv]
    exact ih _ _ (fun p hp => hwf p (List.mem_cons_of_mem _ hp))

theorem skip_columns_none_tag (before : List (List Nat × rover_db_value)) (key : List Nat)
    (more : Nat) (a tail : List Nat)
    (hwf : ∀ pair ∈ before, pair.1.length < 2 ^ 32 ∧ WfValue pair.2)
    (hkey : key.length < 2 ^ 32) :
    (skip_columns (before.length + (more + 1))
      (fstream.cursor a (columns_bytes before ++ (string_bytes key ++ 0 :: tail)))).1
      = false := by
  induction before generalizing a with
  | nil =>
    rw [List.length_nil, Nat.zero_add, skip_columns_succ, columns_bytes, List.nil_append,
      deserialize_string_cursor a key _ hkey]
    dsimp only
    rw [deserialize_cursor_cons]
    dsimp only
    rw [ofLE_single]
    rfl
  | cons c cs ih =>
    obtain ⟨hk, hv⟩ := hwf c (List.mem_cons_self _ _)
    rw [List.length_cons, Nat.add_right_comm, columns_bytes, List.append_assoc,
      List.append_assoc, skip_columns_step _ a c.1 c.2 _ hk hv]
    exact ih _ (fun p hp => hwf p (List.mem_cons_of_mem _ hp))

/-- The scan ends at the torn record of a row with a NONE-tagged value, whatever
table is asked for and whatever follows in the file. -/
theorem scan_loop_torn_row (t1 t : List Nat) (fuel count : Nat)
    (before : List (List Nat × rover_db_value)) (key : List Nat) (a tail : List Nat)
    (rows : List rover_db_row) (ht : t.length < 2 ^ 32)
    (hwf : ∀ pair ∈ before, pair.1.length < 2 ^ 32 ∧ WfValue pair.2)
    (hkey : key.length < 2 ^ 32) (hcount : count < 2 ^ 32) (hlt : before.length < count) :
    ∃ fs1, scan_loop t1 (fuel + 1) (fstream.cursor a (torn_row_bytes t count before key ++ tail))
      rows = some (rows, fs1) := by
  obtain ⟨more, rfl⟩ : ∃ more, count = before.length + (more + 1) :=
    ⟨count - before.length - 1, by omega⟩
  have h4 : ofLE (toLE 4 (before.length + (more + 1))) = before.length + (more + 1) :=
    ofLE_toLE_of_lt 4 _ (by norm_num at hcount ⊢; omega)
  rw [scan_loop_succ, torn_row_bytes, Nat.mod_eq_of_lt hcount, List.cons_append,
    peek_cursor_cons]
  dsimp only
  rw [deserialize_cursor_cons]
  dsimp only
  rw [ofLE_single, if_neg (by decide), if_pos rfl]
  simp only [List.append_assoc, List.singleton_append]
  rw [deserialize_string_cursor _ t _ ht]
  dsimp only
  rw [deserialize_cursor _ (toLE 4 (before.length + (more + 1))) _ 4 (toLE_length 4 _)]
  dsimp only
  rw [h4]
  by_cases hname : t = t1
  · rw [if_pos hname, fst_none _ (read_columns_none_tag before key more _ tail _ hwf hkey)]
    exact ⟨_, rfl⟩
  · rw [if_neg hname, fst_false _ (skip_columns_none_tag before key more _ tail hwf hkey)]
    exact ⟨_, rfl⟩

/-! ## The claims -/

/-- C1. Row round-trip through the log: let the file hold well-formed records
none of which is a row record for `t`, let `insert_row(t, r)` run on it for a
well-typed row `r` (table name shorter than 2^32 bytes), and let further
well-formed records, none a row record for `t`, follow.  Then `insert_row`
succeeded and `get_table(t)` returns exactly one row, which is the same map as
`r`. -/
theorem row_roundtrip (t : List Nat) (r : rover_db_row) (before after : List Record)
    (db0 db2 : rover_db) (ht : t.length < 2 ^ 32) (hr : WfRow r)
    (hb : ∀ rec ∈ before, WfRecord rec ∧ rec.is_row_for t = false)
    (ha : ∀ rec ∈ after, WfRecord rec ∧ rec.is_row_for t = false)
    (h0 : db0.file_.Ready) (hc0 : db0.file_.content = records_bytes before)
    (h2 : db2.file_.is_open = true)
    (hc2 : db2.file_.content = (db0.insert_row t r).2.file_.content ++ records_bytes after) :
    (db0.insert_row t r).1 = some true ∧
      ∃ r1 db3, db2.get_table t = some ([r1], db3) ∧ SameRow r1 r := by
  rw [insert_row_ready db0 t r h0 (wf_row_values r hr)] at hc2 ⊢
  have hc : db2.file_.content
      = records_bytes (before ++ (Record.insertion t r.data_ :: after)) := by
    rw [hc2, records_bytes_append, records_bytes]
    simp [fstream.append, hc0]
  have hwf : ∀ rec ∈ before ++ (Record.insertion t r.data_ :: after), WfRecord rec := by
    intro rec hrec
    rcases List.mem_append.mp hrec with h | h
    · exact (hb rec h).1
    · rcases List.mem_cons.mp h with h | h
      · subst h
        exact ⟨ht, hr.2⟩
      · exact (ha rec h).1
  have hrows : rows_for t (before ++ (Record.insertion t r.data_ :: after))
      = [row_of_columns r.data_] := by
    rw [rows_for_append, rows_for_cons, rows_for_none t before (fun x hx => (hb x hx).2),
      rows_for_none t after (fun x hx => (ha x hx).2)]
    simp [rows_for]
  refine ⟨rfl, row_of_columns r.data_,
    ⟨fstream.at_eof (records_bytes (before ++ (Record.insertion t r.data_ :: after)))⟩, ?_,
    row_of_columns_same r hr.1⟩
  rw [get_table_records db2 t _ h2 hc hwf, hrows]

/-- C1 at the row `{a: 5, b: 2.5, c: "x", d: true}` and the table `t`, with
records of other tables before and after it. -/
theorem row_roundtrip_witness :
    ((rover_db.mk (fstream.cursor (records_bytes example_records) [])).insert_row [116]
        example_row).1 = some true ∧
      ∃ r1 db3,
        (rover_db.mk (fstream.cursor []
          (((rover_db.mk (fstream.cursor (records_bytes example_records) [])).insert_row [116]
              example_row).2.file_.content ++ records_bytes example_records))).get_table [116]
          = some ([r1], db3) ∧ SameRow r1 example_row :=
  row_roundtrip [116] example_row example_records example_records
    (rover_db.mk (fstream.cursor (records_bytes example_records) []))
    (rover_db.mk (fstream.cursor []
      (((rover_db.mk (fstream.cursor (records_bytes example_records) [])).insert_row [116]
          example_row).2.file_.content ++ records_bytes example_records)))
    (by decide) (by decide) (by decide) (by decide) ⟨rfl, rfl⟩ (by rfl) rfl rfl

/-- C2. Value codec round-trip: for a value whose payload agrees with its tag
(`int64_t` in range, 64-bit pattern, string shorter than 2^32 bytes),
`serialize_rover_db_value` succeeds on a ready stream and appends some bytes;
on any file in which these bytes sit at the read position, followed by any
`rest`, `deserialize_rover_db_value` succeeds, yields the same value, and leaves
the position at the first byte of `rest`. -/
theorem value_roundtrip (v : rover_db_value) (hv : WfValue v) (fs : fstream) (hfs : fs.Ready)
    (before rest : List Nat) :
    ∃ bytes, serialize_rover_db_value fs v = (some true, fs.append bytes) ∧
      deserialize_rover_db_value (fstream.cursor before (bytes ++ rest))
        = (some v, fstream.cursor (before ++ bytes) rest) :=
  ⟨value_bytes v, serialize_value_ready fs hfs v hv, deserialize_value_cursor before v rest hv⟩

/-- C2 at the string value `"xy"`. -/
theorem value_roundtrip_witness :
    ∃ bytes, serialize_rover_db_value fresh.file_ ⟨.STRING, .string [120, 121]⟩
        = (some true, fresh.file_.append bytes) ∧
      deserialize_rover_db_value (fstream.cursor [9] (bytes ++ [7, 7]))
        = (some ⟨.STRING, .string [120, 121]⟩, fstream.cursor ([9] ++ bytes) [7, 7]) :=
  value_roundtrip ⟨.STRING, .string [120, 121]⟩ (by decide) fresh.file_ ⟨rfl, rfl⟩ [9] [7, 7]

/-- C3. Append-order preservation: after any sequence of `create_table` and
`insert_row` calls on a freshly opened empty file (table names shorter than
2^32 bytes, rows well-typed), `get_table(t)` returns, element by element and in
the same order, the rows passed to the `insert_row` calls for `t`. -/
theorem append_order_preserved (t : List Nat) (calls : List Call)
    (hwf : ∀ c ∈ calls, WfCall c) :
    ∃ rows db1, (run_calls fresh calls).get_table t = some (rows, db1) ∧
      List.Forall₂ SameRow rows (inserted_rows t calls) :=
  ⟨_, _, get_table_after_calls t calls hwf, rows_for_inserted t calls hwf⟩

/-- C3 at `example_calls` and the table `t`. -/
theorem append_order_preserved_witness :
    ∃ rows db1, (run_calls fresh example_calls).get_table [116] = some (rows, db1) ∧
      List.Forall₂ SameRow rows (inserted_rows [116] example_calls) :=
  append_order_preserved [116] example_calls (by decide)

/-- C4. Table isolation: after any interleaving of `insert_row` calls for the
tables `t1` and `t2` (and possibly others, and `create_table` calls) on a
freshly opened empty file, `get_table(t1)` returns exactly as many rows as there
were `insert_row(t1, _)` calls, and these are the rows inserted into `t1`; a
following `get_table(t2)` does the same for `t2`. -/
theorem table_isolation (t1 t2 : List Nat) (calls : List Call)
    (hwf : ∀ c ∈ calls, WfCall c) :
    ∃ rows1 db1 rows2 db2,
      (run_calls fresh calls).get_table t1 = some (rows1, db1) ∧
      db1.get_table t2 = some (rows2, db2) ∧
      rows1.length = (inserted_rows t1 calls).length ∧
      rows2.length = (inserted_rows t2 calls).length ∧
      List.Forall₂ SameRow rows1 (inserted_rows t1 calls) ∧
      List.Forall₂ SameRow rows2 (inserted_rows t2 calls) := by
  have hrec : ∀ rec ∈ calls.map Call.record, WfRecord rec := by
    intro rec hrec
    obtain ⟨c, hc, rfl⟩ := List.mem_map.mp hrec
    exact wf_call_record c (hwf c hc)
  refine ⟨_, _, _, _, get_table_after_calls t1 calls hwf,
    get_table_records _ t2 (calls.map Call.record) rfl (by simp [fstream.at_eof, fstream.cursor])
      hrec, ?_, ?_, rows_for_inserted t1 calls hwf, rows_for_inserted t2 calls hwf⟩
  · exact (rows_for_inserted t1 calls hwf).length_eq
  · exact (rows_for_inserted t2 calls hwf).length_eq

/-- C4 at `example_calls`: three rows for the table `t`, one for the table `u`. -/
theorem table_isolation_witness :
    ∃ rows1 db1 rows2 db2,
      (run_calls fresh example_calls).get_table [116] = some (rows1, db1) ∧
      db1.get_table [117] = some (rows2, db2) ∧
      rows1.length = 3 ∧ rows2.length = 1 ∧
      List.Forall₂ SameRow rows1 (inserted_rows [116] example_calls) ∧
      List.Forall₂ SameRow rows2 (inserted_rows [117] example_calls) :=
  table_isolation [116] [117] example_calls (by decide)

/-- C5. Truncation tolerance: take a non-empty sequence of well-formed records
and cut the file at an offset strictly inside the encoding of the last record.
Then `get_table(t)` on the cut file returns, without failing, exactly the rows
that `get_table(t)` returns on the file of all records but the last (the rows
these records hold for `t`); the torn record contributes no row. -/
theorem truncation_tolerance (t : List Nat) (init : List Record) (last : Record) (cut : Nat)
    (db_cut db_prior : rover_db) (hwf : ∀ rec ∈ init ++ [last], WfRecord rec)
    (h1 : (records_bytes init).length < cut)
    (h2 : cut < (records_bytes (init ++ [last])).length)
    (ho : db_cut.file_.is_open = true)
    (hc : db_cut.file_.content = (records_bytes (init ++ [last])).take cut)
    (ho2 : db_prior.file_.is_open = true)
    (hc2 : db_prior.file_.content = records_bytes init) :
    ∃ rows d1 d2, db_cut.get_table t = some (rows, d1) ∧
      db_prior.get_table t = some (rows, d2) ∧ rows = rows_for t init := by
  have hinit : ∀ rec ∈ init, WfRecord rec :=
    fun r hr => hwf r (List.mem_append.mpr (Or.inl hr))
  have hlast : WfRecord last := hwf last (List.mem_append.mpr (Or.inr (List.mem_singleton.mpr rfl)))
  have hbytes : records_bytes (init ++ [last]) = records_bytes init ++ last.bytes := by
    simp [records_bytes_append, records_bytes]
  rw [hbytes] at hc h2
  rw [List.length_append] at h2
  rw [List.take_append_eq_append_take, List.take_of_length_le (Nat.le_of_lt h1)] at hc
  have hcut : Cut (last.bytes.take (cut - (records_bytes init).length)) last.bytes := by
    refine ⟨last.bytes.drop (cut - (records_bytes init).length), ?_,
      (List.take_append_drop _ _).symm⟩
    intro hnil
    have := congrArg List.length hnil
    simp only [List.length_drop, List.length_nil] at this
    omega
  have hplen : (last.bytes.take (cut - (records_bytes init).length)).length
      = cut - (records_bytes init).length := by
    rw [List.length_take]
    omega
  have hlen := records_bytes_length init
  obtain ⟨k, hk⟩ : ∃ k, db_cut.file_.content.length + 1 = (k + 2) + init.length := by
    refine ⟨db_cut.file_.content.length + 1 - 2 - init.length, ?_⟩
    rw [hc, List.length_append, hplen]
    omega
  have hscan := scan_loop_records t init (k + 2) []
    (last.bytes.take (cut - (records_bytes init).length)) [] hinit
  obtain ⟨fs1, hfs1⟩ := scan_loop_cut t k ([] ++ records_bytes init)
    (last.bytes.take (cut - (records_bytes init).length)) last ([] ++ rows_for t init) hlast hcut
  refine ⟨rows_for t init, ⟨fs1⟩, _, ?_, get_table_records db_prior t init ho2 hc2 hinit, rfl⟩
  unfold rover_db.get_table
  rw [ho, hk, clear_seekg_beg _ ho, hc, hscan, hfs1]
  simp

/-- C5 at a file of 122 bytes cut at offset 100, inside its last record, which
starts at offset 66. -/
theorem truncation_tolerance_witness :
    ∃ rows d1 d2,
      (rover_db.mk (fstream.cursor []
        ((records_bytes (example_records ++ [Record.insertion [117] example_row.data_])).take
          100))).get_table [117] = some (rows, d1) ∧
      (rover_db.mk (fstream.cursor [] (records_bytes example_records))).get_table [117]
        = some (rows, d2) ∧
      rows = rows_for [117] example_records :=
  truncation_tolerance [117] example_records (.insertion [117] example_row.data_) 100 _ _
    (by decide) (by decide) (by decide) rfl rfl rfl rfl

/-- C6 (the code departs from the claim). The file `[0] ++ record`, where the
record is a row record of table `t`: the scan of the empty sequence of records
returns no row, yet the scan of the file with the unknown kind byte 0 in front
returns the row decoded from the bytes after it. -/
theorem unknown_kind_byte_does_not_end_scan :
    ((rover_db.mk (fstream.cursor [] [])).get_table [116]).map Prod.fst = some [] ∧
    ((rover_db.mk (fstream.cursor []
        (0 :: (Record.insertion [116] example_row.data_).bytes))).get_table [116]).map Prod.fst
      = some [row_of_columns example_row.data_] := by
  decide

/-- C7 (the code departs from the claim). On a freshly opened empty file,
`get_table` runs into the end of the file and leaves `eofbit` set; the engine is
still open, and the following `create_table` returns `false` and writes
nothing. -/
theorem create_table_fails_after_scan :
    (fresh.get_table [116]).map
        (fun r => (r.1, r.2.file_.is_open, r.2.file_.eofbit, (r.2.create_table [116]).1,
          (r.2.create_table [116]).2.file_.content))
      = some ([], true, true, false, []) := by
  decide

/-- C8, counterexample. On a database that was never opened, and on one that
was closed, `get_table` returns a row sequence, the empty one: the same outcome
as on an open database over an empty file. -/
theorem get_table_not_open_returns_rows :
    (rover_db.create []).get_table [116] = some ([], rover_db.create []) ∧
    (fresh.close.get_table [116]).map Prod.fst = some [] ∧
    (fresh.get_table [116]).map Prod.fst = some [] := by
  decide

/-- C8, as amended. On a database that is not open, `get_table` returns the
empty row sequence and leaves the database, the file content included, as it
was. -/
theorem get_table_not_open (db : rover_db) (t : List Nat) (h : db.file_.is_open = false) :
    db.get_table t = some ([], db) := by
  simp [rover_db.get_table, h]

/-- C8, as amended, at a database that was never opened and at one that was
closed after an insertion. -/
theorem get_table_not_open_witness :
    (rover_db.create [1, 1, 0, 0, 0, 116]).get_table [116]
        = some ([], rover_db.create [1, 1, 0, 0, 0, 116]) ∧
      ((fresh.insert_row [116] example_row).2.close).get_table [116]
        = some ([], (fresh.insert_row [116] example_row).2.close) :=
  ⟨get_table_not_open _ _ rfl, get_table_not_open _ _ rfl⟩

/-- C9. Mutating operations on a database that is not open (never opened, or
closed) return failure and leave the database, the file content included, as it
was. -/
theorem mutators_fail_when_not_open (db : rover_db) (t : List Nat) (row : rover_db_row)
    (rows : List rover_db_row) (h : db.file_.is_open = false) :
    db.create_table t = (false, db) ∧ db.insert_row t row = (some false, db) ∧
      db.bulk_insert t rows = (some false, db) := by
  simp [rover_db.create_table, rover_db.insert_row, rover_db.bulk_insert, h]

/-- C9 at a database that was never opened and at one that was closed. -/
theorem mutators_fail_when_not_open_witness :
    ((rover_db.create [1, 1, 0, 0, 0, 116]).create_table [116]
        = (false, rover_db.create [1, 1, 0, 0, 0, 116]) ∧
      (rover_db.create [1, 1, 0, 0, 0, 116]).insert_row [116] example_row
        = (some false, rover_db.create [1, 1, 0, 0, 0, 116]) ∧
      (rover_db.create [1, 1, 0, 0, 0, 116]).bulk_insert [116] [example_row, example_row]
        = (some false, rover_db.create [1, 1, 0, 0, 0, 116])) ∧
    (fresh.close.create_table [116] = (false, fresh.close) ∧
      fresh.close.insert_row [116] example_row = (some false, fresh.close) ∧
      fresh.close.bulk_insert [116] [example_row, example_row] = (some false, fresh.close)) :=
  ⟨mutators_fail_when_not_open _ _ _ _ rfl, mutators_fail_when_not_open _ _ _ _ rfl⟩

/-- C10. Value decode rejects bad input: `deserialize_rover_db_value` fails,
producing no value, on every byte sequence that is empty, or starts with a byte
other than 1, 2, 3, 4, or ends before the payload its tag calls for is complete
(`RejectedValueBytes`); in particular on every encoding of a well-formed value
that was cut short. -/
theorem value_decode_rejects (before b : List Nat)
    (h : RejectedValueBytes b ∨ ∃ v, WfValue v ∧ Cut b (value_bytes v)) :
    (deserialize_rover_db_value (fstream.cursor before b)).1 = none := by
  rcases h with h | ⟨v, hv, hcut⟩
  · exact deserialize_value_rejected before b h
  · exact deserialize_value_cut before b v hv hcut

/-- C10 at the empty input, the tag 0, an integer and a string that end early,
and a string whose length field ends early. -/
theorem value_decode_rejects_witness :
    (deserialize_rover_db_value (fstream.cursor [2, 0] [])).1 = none ∧
    (deserialize_rover_db_value (fstream.cursor [2, 0] [0, 1, 2, 3])).1 = none ∧
    (deserialize_rover_db_value (fstream.cursor [] [1, 5, 0, 0, 0, 0, 0, 0])).1 = none ∧
    (deserialize_rover_db_value (fstream.cursor [] [3, 2, 0, 0, 0, 120])).1 = none ∧
    (deserialize_rover_db_value (fstream.cursor [] [3, 2, 0, 0])).1 = none :=
  ⟨value_decode_rejects [2, 0] [] (Or.inl (Or.inl rfl)),
   value_decode_rejects [2, 0] [0, 1, 2, 3]
    (Or.inl (Or.inr (Or.inl ⟨0, [1, 2, 3], rfl, by decide, by decide, by decide, by decide⟩))),
   value_decode_rejects [] [1, 5, 0, 0, 0, 0, 0, 0]
    (Or.inl (Or.inr (Or.inr (Or.inl ⟨1, [5, 0, 0, 0, 0, 0, 0], rfl, Or.inl rfl, by decide⟩)))),
   value_decode_rejects [] [3, 2, 0, 0, 0, 120]
    (Or.inr ⟨⟨.STRING, .string [120, 121]⟩, by decide, [121], by decide, rfl⟩),
   value_decode_rejects [] [3, 2, 0, 0]
    (Or.inl (Or.inr (Or.inr (Or.inr (Or.inr (Or.inl ⟨[2, 0, 0], rfl, by decide⟩))))))⟩

/-- C11. On-disk layout of a row record: a successful `insert_row(t, r)` of a
well-typed row (table name, column names and strings shorter than 2^32 bytes,
fewer than 2^32 columns) leaves the file equal to its previous content followed
by exactly the row record of the format description (`spec_row_record`).  No
byte of the previous content is changed. -/
theorem row_record_layout (db : rover_db) (t : List Nat) (row : rover_db_row)
    (hok : (db.insert_row t row).1 = some true) (ht : t.length < 2 ^ 32) (hrow : WfRow row) :
    (db.insert_row t row).2.file_.content
      = db.file_.content ++ spec_row_record t row.data_ := by
  have hready := insert_row_true_ready db t row hok
  rw [insert_row_ready db t row hready (wf_row_values row hrow),
    spec_row_record_eq t row.data_ ht hrow.2]
  rfl

/-- C11 at a file that holds a creation record, the table `t` and the row
`{a: 5, b: 2.5, c: "x", d: true}`. -/
theorem row_record_layout_witness :
    ((rover_db.mk (fstream.cursor [1, 1, 0, 0, 0, 116] [])).insert_row [116]
        example_row).2.file_.content
      = [1, 1, 0, 0, 0, 116] ++ spec_row_record [116] example_row.data_ :=
  row_record_layout (rover_db.mk (fstream.cursor [1, 1, 0, 0, 0, 116] [])) [116] example_row
    (by decide) (by decide) (by decide)

/-- C12. `bulk_insert` is sequential `insert_row`: on an open database it gives
the result and the database that applying `insert_row` to each row in order
gives when nothing more is done once a call has not succeeded
(`sequential_insert`); on the empty list it succeeds and changes nothing; and
when the rows before row `r` are inserted successfully and `insert_row` of `r`
does not succeed, the outcome is that of this call: what the earlier calls
appended is still in the file and no later row is touched. -/
theorem bulk_insert_sequential (db : rover_db) (t : List Nat) (rows : List rover_db_row)
    (hopen : db.file_.is_open = true) :
    db.bulk_insert t rows = sequential_insert db t rows ∧
    db.bulk_insert t [] = (some true, db) ∧
    ∀ before r after db_i, rows = before ++ r :: after →
      db.bulk_insert t before = (some true, db_i) →
      (db_i.insert_row t r).1 ≠ some true →
      db.bulk_insert t rows = db_i.insert_row t r ∧
        db_i.file_.Extends (db.bulk_insert t rows).2.file_ ∧ db.file_.Extends db_i.file_ := by
  have hb : ∀ rs, db.bulk_insert t rs = rover_db.bulk_loop t rs db := by
    intro rs
    simp [rover_db.bulk_insert, hopen]
  refine ⟨by rw [hb, bulk_loop_sequential], by rw [hb, bulk_loop_nil], ?_⟩
  intro before r after db_i hrows hbefore hfail
  rw [hb] at hbefore
  have hstep : rover_db.bulk_loop t rows db = db_i.insert_row t r := by
    rw [hrows, bulk_loop_append, hbefore]
    dsimp only
    rw [bulk_loop_cons]
    rcases hx : db_i.insert_row t r with ⟨res, db1⟩
    rw [hx] at hfail
    rcases res with _ | _ | _
    · rfl
    · rfl
    · exact (hfail rfl).elim
  refine ⟨by rw [hb, hstep], by rw [hb, hstep]; exact insert_row_extends db_i t r, ?_⟩
  have := bulk_loop_extends t before db
  rw [hbefore] at this
  exact this

/-- C12 at three rows of which the second holds a NONE-tagged value: the first
row is in the file, the call fails at the second, the third is not written. -/
theorem bulk_insert_sequential_witness :
    fresh.bulk_insert [116] [example_row, ⟨[([120], ⟨.NONE, .int64 0⟩)]⟩, example_row]
      = sequential_insert fresh [116]
          [example_row, ⟨[([120], ⟨.NONE, .int64 0⟩)]⟩, example_row] ∧
    (fresh.bulk_insert [116] [example_row, ⟨[([120], ⟨.NONE, .int64 0⟩)]⟩, example_row]).1
      = some false ∧
    (fresh.bulk_insert [116]
        [example_row, ⟨[([120], ⟨.NONE, .int64 0⟩)]⟩, example_row]).2.file_.content
      = (Record.insertion [116] example_row.data_).bytes
          ++ [2, 1, 0, 0, 0, 116, 1, 0, 0, 0, 1, 0, 0, 0, 120, 0] :=
  ⟨(bulk_insert_sequential fresh [116]
      [example_row, ⟨[([120], ⟨.NONE, .int64 0⟩)]⟩, example_row] rfl).1, by decide, by decide⟩

/-- C13. Idempotent re-scan: on every database, whatever the file holds and
wherever the first scan left the position and the flags, two `get_table(t)`
calls in succession return the same rows, and the file content after each of
them is the content before. -/
theorem rescan_idempotent (db : rover_db) (t : List Nat) :
    ∃ rows db1 db2, db.get_table t = some (rows, db1) ∧ db1.get_table t = some (rows, db2) ∧
      db1.file_.content = db.file_.content ∧ db2.file_.content = db.file_.content := by
  obtain ⟨rows, db1, h1, hc, ho, _⟩ := get_table_returns db t
  by_cases hopen : db.file_.is_open = true
  · refine ⟨rows, db1, db1, h1, ?_, hc, hc⟩
    rw [get_table_of_content db db1 t hopen (ho.trans hopen) hc, h1]
  · have hf : db.file_.is_open = false := by simpa using hopen
    have h2 : db.get_table t = some ([], db) := by simp [rover_db.get_table, hf]
    rw [h2] at h1
    simp only [Option.some.injEq, Prod.mk.injEq] at h1
    obtain ⟨rfl, rfl⟩ := h1
    exact ⟨[], db, db, h2, h2, rfl, rfl⟩

/-- C14. Typed column getters: `get_int(key)` returns `v` exactly when the row
maps `key` to a value tagged INTEGER with payload `v`, and throws when the key
is absent or maps to a value of another tag; likewise `get_float` / FLOAT,
`get_string` / STRING and `get_bool` / BOOLEAN.  After `add_value(key, v)` with
`v` of one type, the getter of that type returns `v` and the other three
throw. -/
theorem typed_getters (row : rover_db_row) (key : List Nat) :
    ((∀ v, row.get_int key = .ok v ↔ row.find key = some ⟨.INTEGER, .int64 v⟩) ∧
      (∀ v, row.get_float key = .ok v ↔ row.find key = some ⟨.FLOAT, .double v⟩) ∧
      (∀ v, row.get_string key = .ok v ↔ row.find key = some ⟨.STRING, .string v⟩) ∧
      (∀ v, row.get_bool key = .ok v ↔ row.find key = some ⟨.BOOLEAN, .bool v⟩)) ∧
    ((AbsentOrOtherTag row key .INTEGER → row.get_int key = .error .runtime_error) ∧
      (AbsentOrOtherTag row key .FLOAT → row.get_float key = .error .runtime_error) ∧
      (AbsentOrOtherTag row key .STRING → row.get_string key = .error .runtime_error) ∧
      (AbsentOrOtherTag row key .BOOLEAN → row.get_bool key = .error .runtime_error)) ∧
    ((∀ v, (row.add_value_int key v).get_int key = .ok v ∧
        (row.add_value_int key v).get_float key = .error .runtime_error ∧
        (row.add_value_int key v).get_string key = .error .runtime_error ∧
        (row.add_value_int key v).get_bool key = .error .runtime_error) ∧
      (∀ v, (row.add_value_float key v).get_float key = .ok v ∧
        (row.add_value_float key v).get_int key = .error .runtime_error ∧
        (row.add_value_float key v).get_string key = .error .runtime_error ∧
        (row.add_value_float key v).get_bool key = .error .runtime_error) ∧
      (∀ v, (row.add_value_string key v).get_string key = .ok v ∧
        (row.add_value_string key v).get_int key = .error .runtime_error ∧
        (row.add_value_string key v).get_float key = .error .runtime_error ∧
        (row.add_value_string key v).get_bool key = .error .runtime_error) ∧
      (∀ v, (row.add_value_bool key v).get_bool key = .ok v ∧
        (row.add_value_bool key v).get_int key = .error .runtime_error ∧
        (row.add_value_bool key v).get_float key = .error .runtime_error ∧
        (row.add_value_bool key v).get_string key = .error .runtime_error)) := by
  refine ⟨⟨get_int_ok_iff row key, get_float_ok_iff row key, get_string_ok_iff row key,
    get_bool_ok_iff row key⟩, ⟨get_int_other row key, get_float_other row key,
    get_string_other row key, get_bool_other row key⟩, ?_, ?_, ?_, ?_⟩ <;> intro v <;>
    simp [rover_db_row.add_value_int, rover_db_row.add_value_float,
      rover_db_row.add_value_string, rover_db_row.add_value_bool, rover_db_row.get_int,
      rover_db_row.get_float, rover_db_row.get_string, rover_db_row.get_bool, find_assign_self]

/-- C14 at the row with `id` set to the integer 1 and `name` set to `"Ann"`:
`get_int("id")` is 1, `get_int("name")` and `get_int` of an absent key throw. -/
theorem typed_getters_witness :
    ((rover_db_row.empty.add_value_int [105, 100] 1).add_value_string [110] [65, 110, 110]).get_int
        [105, 100] = .ok 1 ∧
    ((rover_db_row.empty.add_value_int [105, 100] 1).add_value_string [110] [65, 110, 110]).get_int
        [110] = .error .runtime_error ∧
    ((rover_db_row.empty.add_value_int [105, 100] 1).add_value_string [110] [65, 110, 110]).get_int
        [120] = .error .runtime_error :=
  ⟨((typed_getters _ [105, 100]).1.1 1).mpr rfl,
   (typed_getters _ [110]).2.1.1 (Or.inr ⟨⟨.STRING, .string [65, 110, 110]⟩, rfl, by decide⟩),
   (typed_getters _ [120]).2.1.1 (Or.inl rfl)⟩

/-- C15. Tag and payload always agree: every value of a row built from the empty
row by `add_value` calls, and every value of every row `get_table` returns,
whatever bytes the file holds, has a tag among INTEGER, FLOAT, STRING, BOOLEAN
and the payload of that tag; none is tagged NONE. -/
theorem tag_payload_agree :
    (∀ row, Built row → RowAgrees row) ∧
    (∀ (db : rover_db) (t : List Nat), ∃ rows db1, db.get_table t = some (rows, db1) ∧
      RowsAgree rows) ∧
    (∀ v, TagAgrees v → v.type ≠ .NONE) := by
  refine ⟨built_agrees, ?_, tag_agrees_not_none⟩
  intro db t
  obtain ⟨rows, db1, h1, _, _, hr⟩ := get_table_returns db t
  exact ⟨rows, db1, h1, hr⟩

/-- C16. Skipping a non-matching row is equivalent to decoding and dropping it:
whatever bytes the file holds, `get_table(t)` returns a row list, and it is the
row list of the reference scanner, which decodes every column of every row
record and drops the row when its table name is not `t`; and on the columns of
a well-formed row record the skipping loop and the decoding loop leave the same
stream. -/
theorem skip_equals_decode_and_drop (db : rover_db) (t : List Nat) :
    (∃ rows, (db.get_table t).map Prod.fst = some rows ∧
      (db.reference_get_table t).map Prod.fst = some rows) ∧
    (∀ (cols : List (List Nat × rover_db_value)) (a rest : List Nat) (row : rover_db_row),
      (∀ pair ∈ cols, pair.1.length < 2 ^ 32 ∧ WfValue pair.2) →
      skip_columns cols.length (fstream.cursor a (columns_bytes cols ++ rest))
        = (true, (read_columns cols.length
            (fstream.cursor a (columns_bytes cols ++ rest)) row).2)) := by
  constructor
  · obtain ⟨rows, db1, h1, _⟩ := get_table_returns db t
    refine ⟨rows, by rw [h1]; rfl, ?_⟩
    by_cases ho : db.file_.is_open = true
    · have heq := scan_loop_reference t (db.file_.content.length + 1)
        db.file_.clear.seekg_beg [] (by rw [clear_seekg_beg _ ho]; rfl)
        (by rw [clear_seekg_beg _ ho]; simp [fstream.cursor])
      have h2 : (db.get_table t).map Prod.fst = some rows := by rw [h1]; rfl
      unfold rover_db.get_table at h2
      unfold rover_db.reference_get_table
      rw [ho] at h2 ⊢
      simp only [Bool.not_true, Bool.false_eq_true, if_false, Option.map_map] at h2 ⊢
      rw [← h2]
      have e : (Prod.fst ∘ fun (r : List rover_db_row × fstream) => (r.1, rover_db.mk r.2))
          = Prod.fst := rfl
      rw [e, heq]
    · have hf : db.file_.is_open = false := by simpa using ho
      have h2 : db.get_table t = some ([], db) := by simp [rover_db.get_table, hf]
      rw [h2] at h1
      simp only [Option.some.injEq, Prod.mk.injEq] at h1
      simp [rover_db.reference_get_table, hf, h1.1.symm]
  · intro cols a rest row hwf
    rw [skip_columns_cursor cols a rest hwf, read_columns_cursor cols a rest row hwf]

/-- C17, counterexample. The file holds a torn creation record that announces a
name of 16 bytes.  `insert_row` of a row with a NONE-tagged value fails and
leaves 16 bytes in the file; a row is then inserted successfully.  The scan
takes the 16 bytes for the announced name and returns the later row, whose
record lies after the torn one. -/
theorem torn_record_swallowed_by_earlier_length :
    ((rover_db.mk (fstream.cursor [1, 16, 0, 0, 0] [])).insert_row [116] none_row).1
      = some false ∧
    ((rover_db.mk (fstream.cursor [1, 16, 0, 0, 0] [])).insert_row [116]
        none_row).2.file_.content
      = [1, 16, 0, 0, 0] ++ [2, 1, 0, 0, 0, 116, 1, 0, 0, 0, 1, 0, 0, 0, 120, 0] ∧
    ((((rover_db.mk (fstream.cursor [1, 16, 0, 0, 0] [])).insert_row [116]
        none_row).2.insert_row [116] example_row).1 = some true) ∧
    (((((rover_db.mk (fstream.cursor [1, 16, 0, 0, 0] [])).insert_row [116]
        none_row).2.insert_row [116] example_row).2.get_table [116]).map Prod.fst
      = some [row_of_columns example_row.data_]) := by
  decide

/-- C17, as amended. Let the stream be open and flag-free, the file a sequence
of well-formed records, and the row have a NONE-tagged column whose
predecessors in iteration order are well-typed (names shorter than 2^32 bytes,
fewer than 2^32 columns).  Then `insert_row` returns failure, the file has grown
by the kind byte, the table name, the column count and the columns up to and
including the NONE tag byte, and after any further successful `create_table` and
`insert_row` calls every `get_table` returns exactly the rows of the records
that lie before the torn record. -/
theorem torn_record_ends_scan (db0 : rover_db) (t t1 : List Nat) (recs : List Record)
    (before : List (List Nat × rover_db_value)) (key : List Nat) (payload : variant)
    (after : List (List Nat × rover_db_value)) (calls : List Call)
    (h0 : db0.file_.Ready) (hc : db0.file_.content = records_bytes recs)
    (hrecs : ∀ rec ∈ recs, WfRecord rec) (ht : t.length < 2 ^ 32)
    (hbefore : ∀ pair ∈ before, pair.1.length < 2 ^ 32 ∧ WfValue pair.2)
    (hkey : key.length < 2 ^ 32)
    (hlen : (before ++ (key, (⟨.NONE, payload⟩ : rover_db_value)) :: after).length < 2 ^ 32)
    (hcalls : ∀ c ∈ calls, WfCall c) :
    (db0.insert_row t ⟨before ++ (key, ⟨.NONE, payload⟩) :: after⟩).1 = some false ∧
    (db0.insert_row t ⟨before ++ (key, ⟨.NONE, payload⟩) :: after⟩).2.file_.content
      = db0.file_.content
        ++ torn_row_bytes t (before ++ (key, (⟨.NONE, payload⟩ : rover_db_value)) :: after).length
            before key ∧
    ∃ db3, (run_calls (db0.insert_row t ⟨before ++ (key, ⟨.NONE, payload⟩) :: after⟩).2
        calls).get_table t1 = some (rows_for t1 recs, db3) := by
  rw [insert_row_none db0 t before key payload after h0 (fun p hp => (hbefore p hp).2)]
  refine ⟨rfl, rfl, ?_⟩
  have hready := append_ready db0.file_ h0
    (torn_row_bytes t (before ++ (key, (⟨.NONE, payload⟩ : rover_db_value)) :: after).length
      before key)
  dsimp only
  rw [run_calls_ready calls ⟨db0.file_.append (torn_row_bytes t
    (before ++ (key, (⟨.NONE, payload⟩ : rover_db_value)) :: after).length before key)⟩
    hready hcalls (append_pos _ _)]
  have hlt : before.length
      < (before ++ (key, (⟨.NONE, payload⟩ : rover_db_value)) :: after).length := by
    simp only [List.length_append, List.length_cons]
    omega
  have hlen2 := records_bytes_length recs
  generalize hcount :
    (before ++ (key, (⟨.NONE, payload⟩ : rover_db_value)) :: after).length = count at *
  generalize htail : records_bytes (calls.map Call.record) = tail
  have hcontent : ((db0.file_.append (torn_row_bytes t count before key)).append tail).content
      = records_bytes recs ++ (torn_row_bytes t count before key ++ tail) := by
    simp [fstream.append, hc]
  obtain ⟨k, hk⟩ : ∃ k, (records_bytes recs ++ (torn_row_bytes t count before key ++ tail)).length
      + 1 = (k + 1) + recs.length := by
    refine ⟨(records_bytes recs ++ (torn_row_bytes t count before key ++ tail)).length
      - recs.length, ?_⟩
    rw [List.length_append]
    omega
  have hscan := scan_loop_records t1 recs (k + 1) [] (torn_row_bytes t count before key ++ tail)
    [] hrecs
  obtain ⟨fs1, hfs1⟩ := scan_loop_torn_row t1 t k count before key ([] ++ records_bytes recs)
    tail ([] ++ rows_for t1 recs) ht hbefore hkey hlen hlt
  refine ⟨⟨fs1⟩, ?_⟩
  unfold rover_db.get_table
  have hopen : ((db0.file_.append (torn_row_bytes t count before key)).append tail).is_open
      = true := h0.1
  dsimp only
  rw [hopen, clear_seekg_beg _ hopen, hcontent, hk, hscan, hfs1]
  simp

/-- C17, as amended, at a file of four records, a row whose second column is
tagged NONE, and six later calls: the scan for the table `u` returns the one row
the four records hold for it. -/
theorem torn_record_ends_scan_witness :
    ((rover_db.mk (fstream.cursor (records_bytes example_records) [])).insert_row [116]
        ⟨example_before ++ ([120], ⟨.NONE, .int64 0⟩) :: example_after⟩).1 = some false ∧
    ((rover_db.mk (fstream.cursor (records_bytes example_records) [])).insert_row [116]
        ⟨example_before ++ ([120], ⟨.NONE, .int64 0⟩) :: example_after⟩).2.file_.content
      = (rover_db.mk (fstream.cursor (records_bytes example_records) [])).file_.content
        ++ torn_row_bytes [116]
            (example_before ++ ([120], (⟨.NONE, .int64 0⟩ : rover_db_value))
              :: example_after).length example_before [120] ∧
    ∃ db3, (run_calls
        ((rover_db.mk (fstream.cursor (records_bytes example_records) [])).insert_row [116]
          ⟨example_before ++ ([120], ⟨.NONE, .int64 0⟩) :: example_after⟩).2
        example_calls).get_table [117] = some (rows_for [117] example_records, db3) :=
  torn_record_ends_scan (rover_db.mk (fstream.cursor (records_bytes example_records) []))
    [116] [117] example_records example_before [120] (.int64 0) example_after example_calls
    ⟨rfl, rfl⟩ (by rfl) (by decide) (by decide) (by decide) (by decide) (by decide) (by decide)

/-- C18. The scan terminates on every input: `get_table` returns on every
database and table name.  The reason is that the record loop, started anywhere
with more fuel than there are bytes left in the file, ends, and ends the same
way however much more fuel it is given; and a column count read from four bytes
is below 2^32. -/
theorem scan_terminates (db : rover_db) (t : List Nat) :
    (∃ rows db1, db.get_table t = some (rows, db1)) ∧
    (∀ (fs : fstream) (rows : List rover_db_row) (fuel : Nat),
      fs.content.length - fs.pos < fuel →
      ∃ r, ∀ more, scan_loop t (fuel + more) fs rows = some r) ∧
    (∀ bs : List Nat, bs.length = 4 → (∀ b ∈ bs, b < 256) → ofLE bs < 2 ^ 32) := by
  refine ⟨?_, ?_, ?_⟩
  · obtain ⟨rows, db1, h1, _⟩ := get_table_returns db t
    exact ⟨rows, db1, h1⟩
  · intro fs rows fuel hfuel
    obtain ⟨rows1, fs1, h, _⟩ := scan_loop_ends t fuel fs rows hfuel
    exact ⟨(rows1, fs1), fun more => scan_loop_mono_add t fuel more fs rows _ h⟩
  · intro bs hlen hb
    have := ofLE_lt bs hb
    rw [hlen] at this
    norm_num at this ⊢
    exact this

end Rover
